import Mathlib

/-!
# Fixed-point `Money` arithmetic (package `money`)

A shallow embedding of `finance.go`, `money.go` and the rounding primitive `Rnd` of
`fintech.go`, followed by theorems about the embedded code.

Conventions of the embedding

* An `int64` is an `Int` in `[-2^63, 2^63)`; every arithmetic result is passed through
  `wrap64`, Go's two's-complement wrap-around. The bitwise operators `^`, `&` and `&^`
  are `Int.xor`, `Int.land` and `Int.land _ (Int.lnot _)`: on `Int` these act on the
  infinite two's-complement expansion, which for values in range is the 64-bit pattern
  sign-extended, so the results (and their signs) are those of the 64-bit operators.
* A finite `float64` is the rational number it denotes (`ℚ`). `fl` is IEEE 754 rounding
  to the nearest binary64 value, ties to even, and `isF64 x` says that `x` is a binary64
  value. `Div` is embedded with every float operation rounded by `fl`. `Setf`, `Get`,
  `Mulf` and the interest formulas are embedded with exact arithmetic on `ℚ`, which is
  the arithmetic of the code wherever no float operation of the call rounds; `Mulf64` is
  `Mulf` with every float operation rounded by `fl`. A float operation whose result is
  not a finite number (division by zero, overflow) and a float-to-integer conversion
  whose source is out of the `int64` range (implementation-defined in Go) yield `none`.
* A Go `panic` is recorded in `Outcome.panicked`, together with the state it leaves.
-/

namespace money

/-! ## Machine integers -/

/-- Smallest `int64`. -/
def minInt64 : Int := -9223372036854775808

/-- Largest `int64`. -/
def maxInt64 : Int := 9223372036854775807

/-- Membership in the `int64` range. -/
def inInt64 (x : Int) : Prop := minInt64 ≤ x ∧ x ≤ maxInt64

instance (x : Int) : Decidable (inInt64 x) := by
  unfold inInt64; infer_instance

/-- Two's-complement wrap-around of a mathematical integer into `int64`. -/
def wrap64 (x : Int) : Int := (x + 9223372036854775808) % 18446744073709551616 - 9223372036854775808

/-- Truncation toward zero of an exact value. -/
def truncToZero (f : ℚ) : Int := if 0 ≤ f then ⌊f⌋ else ⌈f⌉

/-- The conversion `int64(f)` of a float: the fraction is discarded (truncation toward
zero); a source outside the `int64` range has no defined result. -/
def toInt64 (f : ℚ) : Option Int :=
  if inInt64 (truncToZero f) then some (truncToZero f) else none

/-- Float division `x / y`; a zero divisor gives an infinity or a NaN, which is no number. -/
def fdiv (x y : ℚ) : Option ℚ := if y = 0 then none else some (x / y)

/-- Integer division `x / y` on `int64`: truncated toward zero, wrapping in the one
overflowing case, and a run-time panic (`none`) on a zero divisor. -/
def idiv (x y : Int) : Option Int := if y = 0 then none else some (wrap64 (Int.tdiv x y))

/-! ## IEEE 754 binary64 rounding -/

/-- The power `2^e` for an integer exponent. -/
def pow2 (e : Int) : ℚ :=
  if 0 ≤ e then ((2 ^ e.toNat : Nat) : ℚ) else 1 / ((2 ^ (-e).toNat : Nat) : ℚ)

/-- Number of binary digits of `n`, counted with `fuel` halvings at most. -/
def bitLen.go : Nat → Nat → Nat
  | 0, _ => 0
  | fuel + 1, n => if n = 0 then 0 else bitLen.go fuel (n / 2) + 1

/-- Number of binary digits of `n`: `2^(bitLen n - 1) ≤ n < 2^(bitLen n)` for `n > 0`. -/
def bitLen (n : Nat) : Nat := bitLen.go n n

/-- The binary exponent `⌊log₂ |x|⌋` of a non-zero rational: the difference of the bit
lengths of numerator and denominator, or one less. -/
def binExp (x : ℚ) : Int :=
  let g : Int := (bitLen x.num.natAbs : Int) - (bitLen x.den : Int)
  if pow2 g ≤ |x| then g else g - 1

/-- Rounding to the nearest integer, a tie going to the even neighbour. -/
def roundHalfEven (y : ℚ) : Int :=
  if y - (⌊y⌋ : ℚ) < 1 / 2 then ⌊y⌋
  else if 1 / 2 < y - (⌊y⌋ : ℚ) then ⌊y⌋ + 1
  else if ⌊y⌋ % 2 = 0 then ⌊y⌋ else ⌊y⌋ + 1

/-- Rounding of an exact result to binary64, round-to-nearest-even: the value is scaled
so that its 53-bit significand is an integer (the unit in the last place is `2^e`, with
`e` at least `-1074` for the subnormal range), rounded there, and scaled back; a result
of magnitude `2^1024` or more is an infinity, which is no number. -/
def fl (x : ℚ) : Option ℚ :=
  if x = 0 then some 0
  else
    let e : Int := max (binExp x - 52) (-1074)
    let y : ℚ := (roundHalfEven (x / pow2 e) : ℚ) * pow2 e
    if |y| < pow2 1024 then some y else none

/-- The rational `x` is a finite binary64 value: rounding leaves it as it is. -/
def isF64 (x : ℚ) : Prop := fl x = some x

instance (x : ℚ) : Decidable (isF64 x) := by
  unfold isF64; infer_instance

/-- Float division with the quotient rounded to binary64; a zero divisor gives an
infinity or a NaN, which is no number. -/
def fdiv64 (x y : ℚ) : Option ℚ := if y = 0 then none else fl (x / y)

/-- Result of running a call that may panic: the state it leaves behind, and in the
panicking case the panic value. -/
inductive Outcome (σ : Type) where
  | done (s : σ)
  | panicked (msg : String) (s : σ)
deriving DecidableEq, Repr

/-- State left behind by a call, whether it returned or panicked. -/
def Outcome.state {σ : Type} : Outcome σ → σ
  | .done s => s
  | .panicked _ s => s

/-- Panic value of a call, if it panicked. -/
def Outcome.panicMsg {σ : Type} : Outcome σ → Option String
  | .done _ => none
  | .panicked msg _ => some msg

/-! ## `finance.go`: constants and package variables -/

def Guardi : Int := 100
def Guard : Int := Guardi
def Guardf : ℚ := Guardi

/-- `Round = .5`. -/
def Round : ℚ := 1 / 2

/-- `Roundn = Round * -1`. -/
def Roundn : ℚ := Round * -1

def DBZ : String := "Divide by zero"
def DTL : String := "Decimal places too large"
def DLZ : String := "Decimal places cannot be less than zero"
def OVFL : String := "Overflow"
def MAXDEC : Int := 18

/-- The Go runtime's panic value for an integer division by zero. -/
def divideError : String := "runtime error: integer divide by zero"

/-- The mutable package variables `DP` and `DPf`. -/
structure Config where
  DP : Int
  DPf : ℚ
deriving DecidableEq, Repr

/-- Initial values: `DP int64 = 100`, `DPf float64 = float64(DP)`. -/
def Config.default : Config := { DP := 100, DPf := 100 }

/-- The loop `for i := 0; i < d; i++ { newDecimal *= 10 }`, run `k` more times
(`int` is the 64-bit integer of the usual Go targets). -/
def DecimalChange.loop : Nat → Int → Int
  | 0, newDecimal => newDecimal
  | k + 1, newDecimal => DecimalChange.loop k (wrap64 (newDecimal * 10))

/-- `DecimalChange` resets the package-wide decimal place: it panics on `d < 0` and on
`d > MAXDEC` before touching the variables, otherwise `newDecimal` starts at zero, is
incremented and multiplied `d` times by ten only when `d > 0`, and is stored in `DPf`
and `DP`. -/
def DecimalChange (c : Config) (d : Int) : Outcome Config :=
  if d < 0 then
    .panicked DLZ c
  else if d > MAXDEC then
    .panicked DTL c
  else
    let newDecimal : Int := if d > 0 then DecimalChange.loop d.toNat (wrap64 (0 + 1)) else 0
    .done { DPf := newDecimal, DP := newDecimal }

/-! ## `fintech.go`: the rounding primitive -/

/-- `Rnd`: with `trunc` the remainder of the float calculation and `r` the integer result,
`if trunc > 0 { if trunc >= Round { r++ } } else { if trunc < Roundn { r-- } }; return r`. -/
def Rnd (r : Int) (trunc : ℚ) : Int :=
  if trunc > 0 then
    if trunc ≥ Round then wrap64 (r + 1) else r
  else
    if trunc < Roundn then wrap64 (r - 1) else r

/-! ## `money.go`: the `Money` type -/

structure Money where
  M : Int
deriving DecidableEq, Repr

/-- `Set` sets the Money field M. -/
def Money.Set (_m : Money) (x : Int) : Money := { M := x }

/-- `Value` returns the raw `M`. -/
def Money.Value (m : Money) : Int := m.M

/-- `Add`: `r := m.M + n.M; if (r^m.M)&(r^n.M) < 0 { panic(OVFL) }; m.M = r`. -/
def Money.Add (m n : Money) : Outcome Money :=
  let r := wrap64 (m.M + n.M)
  if Int.land (Int.xor r m.M) (Int.xor r n.M) < 0 then
    .panicked OVFL m
  else
    .done { M := r }

/-- `Sub`: `r := m.M - n.M; if (r^m.M)&^(r^n.M) < 0 { panic(OVFL) }; m.M = r`. -/
def Money.Sub (m n : Money) : Outcome Money :=
  let r := wrap64 (m.M - n.M)
  if Int.land (Int.xor r m.M) (Int.lnot (Int.xor r n.M)) < 0 then
    .panicked OVFL m
  else
    .done { M := r }

/-- `Get` gets the float64 value of money: `float64(m.M) / DPf`. -/
def Money.Get (c : Config) (m : Money) : Option ℚ := fdiv (m.M : ℚ) c.DPf

/-- `Setf` sets a float64 into a Money:
`fDPf := f * DPf; r := int64(f * DPf); return m.Set(Rnd(r, fDPf-float64(r)))`. -/
def Money.Setf (c : Config) (m : Money) (f : ℚ) : Option Money := do
  let fDPf := f * c.DPf
  let r ← toInt64 (f * c.DPf)
  pure (m.Set (Rnd r (fDPf - (r : ℚ))))

/-- `Div` divides one Money by another:
`f := Guardf * DPf * float64(m.M) / float64(n.M) / Guardf; i := int64(f);
return m.Set(Rnd(i, f-float64(i)))`.
Every float operation is rounded to binary64, in the order of the source: the product
`Guardf * DPf`, the conversion `float64(m.M)`, the second product, the conversion
`float64(n.M)`, the two divisions, the conversion `float64(i)` and the subtraction. -/
def Money.Div (c : Config) (m n : Money) : Option Money := do
  let gd ← fl (Guardf * c.DPf)
  let mf ← fl (m.M : ℚ)
  let p ← fl (gd * mf)
  let nf ← fl (n.M : ℚ)
  let f0 ← fdiv64 p nf
  let f ← fdiv64 f0 Guardf
  let i ← toInt64 f
  let fi ← fl (i : ℚ)
  let t ← fl (f - fi)
  pure (m.Set (Rnd i t))

/-- `Mulf` multiplies a Money with a float:
`i := m.M * int64(f*Guardf*DPf); r := i / Guard / DP;
return m.Set(Rnd(r, float64(i)/Guardf/DPf-float64(r)))`.
The integer divisions panic on a zero divisor, before the receiver is written. -/
def Money.Mulf (c : Config) (m : Money) (f : ℚ) : Option (Outcome Money) := do
  let k ← toInt64 (f * Guardf * c.DPf)
  let i := wrap64 (m.M * k)
  match (idiv i Guard).bind (fun a => idiv a c.DP) with
  | none => pure (Outcome.panicked divideError m)
  | some r =>
    let g ← fdiv (i : ℚ) Guardf
    let t ← fdiv g c.DPf
    pure (Outcome.done (m.Set (Rnd r (t - (r : ℚ)))))

/-- `Mulf` with every float operation rounded to binary64, in the order of the source:
`i := m.M * int64(f*Guardf*DPf); r := i / Guard / DP;
return m.Set(Rnd(r, float64(i)/Guardf/DPf-float64(r)))`. -/
def Money.Mulf64 (c : Config) (m : Money) (f : ℚ) : Option (Outcome Money) := do
  let a ← fl (f * Guardf)
  let b ← fl (a * c.DPf)
  let k ← toInt64 b
  let i := wrap64 (m.M * k)
  match (idiv i Guard).bind (fun q => idiv q c.DP) with
  | none => pure (Outcome.panicked divideError m)
  | some r =>
    let x ← fl (i : ℚ)
    let g ← fdiv64 x Guardf
    let t ← fdiv64 g c.DPf
    let rf ← fl (r : ℚ)
    let u ← fl (t - rf)
    pure (Outcome.done (m.Set (Rnd r u)))

/-! ## Methods that return a value -/

/-- Result of a call that returns a value of type `α`: the value and the state left
behind, or the panic value and the state left behind. -/
inductive Ret (α σ : Type) where
  | ret (v : α) (s : σ)
  | panicked (msg : String) (s : σ)
deriving DecidableEq, Repr

/-- State left behind by a value-returning call. -/
def Ret.state {α σ : Type} : Ret α σ → σ
  | .ret _ s => s
  | .panicked _ s => s

/-- Value returned by a call, if it returned. -/
def Ret.value {α σ : Type} : Ret α σ → Option α
  | .ret v _ => some v
  | .panicked _ _ => none

/-- Panic value of a value-returning call, if it panicked. -/
def Ret.panicMsg {α σ : Type} : Ret α σ → Option String
  | .ret _ _ => none
  | .panicked msg _ => some msg

/-- Integer remainder `x % y` on `int64`: the sign follows the dividend (truncated
division), and a zero divisor is a run-time panic (`none`). -/
def imod (x y : Int) : Option Int := if y = 0 then none else some (Int.tmod x y)

/-- The type `string` of the returned text. -/
abbrev Text : Type := String

/-- The verb `%d` of `fmt.Sprintf`: the decimal digits, after a minus sign for a
negative value. -/
def fmtD (x : Int) : Text :=
  if x < 0 then ("-" ++ Nat.repr x.natAbs) else Nat.repr x.natAbs

/-- The verb `%02d` of `fmt.Sprintf`: as `%d`, padded to a width of at least two
characters with zeros, which go between the sign and the digits; a longer number is
printed in full. -/
def fmt02d (x : Int) : Text :=
  if x < 0 then
    ("-" ++ String.mk (List.replicate (1 - (Nat.repr x.natAbs).length) '0') ++ Nat.repr x.natAbs)
  else
    (String.mk (List.replicate (2 - (Nat.repr x.natAbs).length) '0') ++ Nat.repr x.natAbs)

/-- The characters of a text after its first point (empty when there is none). -/
def afterPoint (s : Text) : List Char := (s.toList.dropWhile (fun ch => ch != '.')).drop 1

/-- `Neg` returns the negative value of Money: `if m.M != 0 { m.M *= -1 }`. -/
def Money.Neg (m : Money) : Money :=
  if m.M ≠ 0 then { M := wrap64 (m.M * -1) } else m

/-- `Abs` returns the absolute value of Money: `if m.M < 0 { m.Neg() }`. -/
def Money.Abs (m : Money) : Money :=
  if m.M < 0 then m.Neg else m

/-- `Sign`: `if m.M < 0 { return -1 }; return 1`. The receiver is only read; it is
returned next to the result. -/
def Money.Sign (m : Money) : Int × Money :=
  if m.M < 0 then (-1, m) else (1, m)

/-- `Gett` gets the value of money truncating after DP: `m.M / DP`. -/
def Money.Gett (c : Config) (m : Money) : Ret Int Money :=
  match idiv m.M c.DP with
  | some q => .ret q m
  | none => .panicked divideError m

/-- `Mul` multiplies two Money types: `m.Set(m.M * n.M / DP)`. A zero `DP` panics while
the argument of `Set` is computed, before the receiver is written. -/
def Money.Mul (c : Config) (m n : Money) : Outcome Money :=
  match idiv (wrap64 (m.M * n.M)) c.DP with
  | some q => .done (m.Set q)
  | none => .panicked divideError m

/-- Money objects in memory, by address: receivers and arguments are pointers. -/
abbrev Store : Type := Nat → Money

/-- Assignment through a pointer. -/
def Store.write (h : Store) (p : Nat) (v : Money) : Store :=
  fun q => if q = p then v else h q

/-- The call `m.Mul(n)` on two pointers (possibly the same): both operands are read
through their pointers and only the receiver is written. -/
def Money.MulAt (c : Config) (h : Store) (m n : Nat) : Outcome Store :=
  match Money.Mul c (h m) (h n) with
  | .done v => .done (h.write m v)
  | .panicked msg _ => .panicked msg h

/-- `String`: `fmt.Sprintf("%d.%02d", m.Value()/DP, m.Abs().Value()%DP)`. The calls run
from left to right: `m.Value()` reads the raw value, then `m.Abs()` rewrites the receiver
and its `Value()` is read; the quotient and the remainder by `DP` are then formed from
the two values read (a zero `DP` panics there) and formatted. -/
def Money.String (c : Config) (m : Money) : Ret Text Money :=
  let v := m.Value
  let m' := m.Abs
  let w := m'.Value
  match idiv v c.DP, imod w c.DP with
  | some a, some b => .ret (fmtD a ++ "." ++ fmt02d b) m'
  | _, _ => .panicked divideError m'

/-! ## `fintech.go`: interest formulas -/

/-- `I`: interest of 1 for `n` periods, `math.Pow((1 + r), float64(n))`. A zero base with
a negative exponent gives an infinity, which is no number. -/
def I (r : ℚ) (n : Int) : Option ℚ :=
  if 1 + r = 0 ∧ n < 0 then none else some ((1 + r) ^ n)

/-- `FVGA`, future value of a growing annuity:
`if r == g { return m.Mulf(float64(n) * I(r, n-1)) }; return m.Mulf(I(r, n) - I(g, n)/(r-g))`. -/
def Money.FVGA (c : Config) (m : Money) (r g : ℚ) (n : Int) : Option (Outcome Money) :=
  if r = g then do
    let x ← I r (wrap64 (n - 1))
    m.Mulf c ((n : ℚ) * x)
  else do
    let a ← I r n
    let b ← I g n
    let q ← fdiv b (r - g)
    m.Mulf c (a - q)

/-- `Interest`: `return m.Mulf(I(r, n))`. -/
def Money.Interest (c : Config) (m : Money) (r : ℚ) (n : Int) : Option (Outcome Money) := do
  let x ← I r n
  m.Mulf c x

/-- The factor in the formula documented above `FVGA`,
`fv = pmt * ( (1+i)^n - (1+r)^n ) / (i - r)`, with `i` the interest rate and `r` the
rate of growth. -/
def documentedFVGAFactor (r g : ℚ) (n : Int) : ℚ := ((1 + r) ^ n - (1 + g) ^ n) / (r - g)

/-- The factor in the formula documented above `Interest`, `I = pv * i * n`. -/
def documentedInterestFactor (r : ℚ) (n : Int) : ℚ := r * (n : ℚ)

/-! ## Sign of the bitwise operators -/

theorem xor_neg_iff (a b : Int) : Int.xor a b < 0 ↔ (a < 0 ↔ 0 ≤ b) := by
  cases a <;> cases b <;> simp [Int.xor, Int.negSucc_lt_zero]
  omega

theorem land_neg_iff (a b : Int) : Int.land a b < 0 ↔ a < 0 ∧ b < 0 := by
  cases a <;> cases b <;> simp [Int.land, Int.negSucc_lt_zero] <;> omega

theorem lnot_neg_iff (a : Int) : Int.lnot a < 0 ↔ 0 ≤ a := by
  cases a <;> simp [Int.lnot, Int.negSucc_lt_zero]

/-- The overflow test of `Add` fires exactly when the sum leaves the `int64` range. -/
theorem add_test_iff (a b : Int) (ha : inInt64 a) (hb : inInt64 b) :
    Int.land (Int.xor (wrap64 (a + b)) a) (Int.xor (wrap64 (a + b)) b) < 0 ↔
      ¬ inInt64 (a + b) := by
  rw [land_neg_iff, xor_neg_iff, xor_neg_iff]
  unfold inInt64 minInt64 maxInt64 at *
  unfold wrap64
  omega

/-- The overflow test of `Sub` fires exactly when the difference leaves the `int64` range. -/
theorem sub_test_iff (a b : Int) (ha : inInt64 a) (hb : inInt64 b) :
    Int.land (Int.xor (wrap64 (a - b)) a) (Int.lnot (Int.xor (wrap64 (a - b)) b)) < 0 ↔
      ¬ inInt64 (a - b) := by
  rw [land_neg_iff, lnot_neg_iff, xor_neg_iff]
  have hx : 0 ≤ Int.xor (wrap64 (a - b)) b ↔ (wrap64 (a - b) < 0 ↔ b < 0) := by
    have := xor_neg_iff (wrap64 (a - b)) b
    constructor
    · intro h; have h1 : ¬ Int.xor (wrap64 (a - b)) b < 0 := by omega
      rw [this] at h1; omega
    · intro h; by_contra h1
      have h2 : Int.xor (wrap64 (a - b)) b < 0 := by omega
      rw [this] at h2; omega
  rw [hx]
  unfold inInt64 minInt64 maxInt64 at *
  unfold wrap64
  omega

theorem wrap64_of_inInt64 (x : Int) (h : inInt64 x) : wrap64 x = x := by
  unfold inInt64 minInt64 maxInt64 at h
  unfold wrap64
  omega

/-! ## Overflow detection in `Add` and `Sub` -/

/-- C1: for `int64` raw values `a` (receiver) and `b` (argument), `Add` panics with
"Overflow" exactly when the mathematical sum `a + b` is outside `[-2^63, 2^63-1]`; when
the sum is in range the call returns with the receiver holding exactly `a + b`, and when
it panics the receiver still holds `a`. -/
theorem Add_overflow_exact (a b : Int) (ha : inInt64 a) (hb : inInt64 b) :
    ((Money.Add ⟨a⟩ ⟨b⟩).panicMsg = some OVFL ↔ ¬ inInt64 (a + b)) ∧
    (inInt64 (a + b) → Money.Add ⟨a⟩ ⟨b⟩ = Outcome.done ⟨a + b⟩) ∧
    (¬ inInt64 (a + b) → Money.Add ⟨a⟩ ⟨b⟩ = Outcome.panicked OVFL ⟨a⟩) := by
  have ht := add_test_iff a b ha hb
  by_cases h : inInt64 (a + b)
  · have hr : Money.Add ⟨a⟩ ⟨b⟩ = Outcome.done ⟨a + b⟩ := by
      dsimp only [Money.Add]
      rw [if_neg (by rw [ht]; exact not_not.mpr h), wrap64_of_inInt64 _ h]
    simp [hr, h, Outcome.panicMsg]
  · have hr : Money.Add ⟨a⟩ ⟨b⟩ = Outcome.panicked OVFL ⟨a⟩ := by
      dsimp only [Money.Add]
      rw [if_pos (ht.mpr h)]
    simp [hr, h, Outcome.panicMsg]

/-- Instance of C1 at the top of the range: `(2^63-1) + 1` panics and leaves the receiver. -/
theorem Add_overflow_exact_witness :
    inInt64 9223372036854775807 ∧ inInt64 1 ∧
    Money.Add ⟨9223372036854775807⟩ ⟨1⟩ = Outcome.panicked OVFL ⟨9223372036854775807⟩ :=
  ⟨by decide, by decide,
    (Add_overflow_exact 9223372036854775807 1 (by decide) (by decide)).2.2 (by decide)⟩

/-- C2: for `int64` raw values `a` (receiver) and `b` (argument), `Sub` panics with
"Overflow" exactly when the mathematical difference `a - b` is outside `[-2^63, 2^63-1]`;
when the difference is in range the call returns with the receiver holding exactly
`a - b`, and when it panics the receiver still holds `a`. -/
theorem Sub_overflow_exact (a b : Int) (ha : inInt64 a) (hb : inInt64 b) :
    ((Money.Sub ⟨a⟩ ⟨b⟩).panicMsg = some OVFL ↔ ¬ inInt64 (a - b)) ∧
    (inInt64 (a - b) → Money.Sub ⟨a⟩ ⟨b⟩ = Outcome.done ⟨a - b⟩) ∧
    (¬ inInt64 (a - b) → Money.Sub ⟨a⟩ ⟨b⟩ = Outcome.panicked OVFL ⟨a⟩) := by
  have ht := sub_test_iff a b ha hb
  by_cases h : inInt64 (a - b)
  · have hr : Money.Sub ⟨a⟩ ⟨b⟩ = Outcome.done ⟨a - b⟩ := by
      dsimp only [Money.Sub]
      rw [if_neg (by rw [ht]; exact not_not.mpr h), wrap64_of_inInt64 _ h]
    simp [hr, h, Outcome.panicMsg]
  · have hr : Money.Sub ⟨a⟩ ⟨b⟩ = Outcome.panicked OVFL ⟨a⟩ := by
      dsimp only [Money.Sub]
      rw [if_pos (ht.mpr h)]
    simp [hr, h, Outcome.panicMsg]

/-- Instance of C2 at the bottom of the range: `-2^63 - 1` panics and leaves the receiver. -/
theorem Sub_overflow_exact_witness :
    inInt64 (-9223372036854775808) ∧ inInt64 1 ∧
    Money.Sub ⟨-9223372036854775808⟩ ⟨1⟩ = Outcome.panicked OVFL ⟨-9223372036854775808⟩ :=
  ⟨by decide, by decide,
    (Sub_overflow_exact (-9223372036854775808) 1 (by decide) (by decide)).2.2 (by decide)⟩

/-! ## The rounding primitive `Rnd` -/

theorem Round_eq : Round = 1 / 2 := rfl

theorem Roundn_eq : Roundn = -1 / 2 := by norm_num [Roundn, Round]

/-- Unfolding of `Rnd` away from the two extreme `int64` values, where `r++` and `r--`
do not wrap. -/
theorem Rnd_eq (q : Int) (t : ℚ) (hlo : minInt64 < q) (hhi : q < maxInt64) :
    Rnd q t = if 0 < t then (if 1 / 2 ≤ t then q + 1 else q)
      else (if t < -1 / 2 then q - 1 else q) := by
  have hu : wrap64 (q + 1) = q + 1 :=
    wrap64_of_inInt64 _ (by unfold inInt64 minInt64 maxInt64 at *; omega)
  have hd : wrap64 (q - 1) = q - 1 :=
    wrap64_of_inInt64 _ (by unfold inInt64 minInt64 maxInt64 at *; omega)
  unfold Rnd
  rw [hu, hd, Round_eq, Roundn_eq]

/-- C3: for every integer `q` strictly between the `int64` extremes (so that `r++` and
`r--` do not wrap) and every exact rational remainder `t`, `Rnd q t` is `q + 1` when
`t > 0` and `t ≥ 1/2`, is `q - 1` when `t ≤ 0` and `t < -1/2`, and is `q` in every
other case. -/
theorem Rnd_spec (q : Int) (t : ℚ) (hlo : minInt64 < q) (hhi : q < maxInt64) :
    (0 < t ∧ 1 / 2 ≤ t → Rnd q t = q + 1) ∧
    (t ≤ 0 ∧ t < -1 / 2 → Rnd q t = q - 1) ∧
    (¬ (0 < t ∧ 1 / 2 ≤ t) ∧ ¬ (t ≤ 0 ∧ t < -1 / 2) → Rnd q t = q) := by
  rw [Rnd_eq q t hlo hhi]
  refine ⟨?_, ?_, ?_⟩
  · rintro ⟨h1, h2⟩
    rw [if_pos h1, if_pos h2]
  · rintro ⟨h1, h2⟩
    rw [if_neg (not_lt.mpr h1), if_pos h2]
  · rintro ⟨h1, h2⟩
    by_cases hp : 0 < t
    · have h3 : ¬ (1 / 2 ≤ t) := fun h => h1 ⟨hp, h⟩
      rw [if_pos hp, if_neg h3]
    · have h3 : ¬ (t < -1 / 2) := fun h => h2 ⟨not_lt.mp hp, h⟩
      rw [if_neg hp, if_neg h3]

/-- Instance of C3: a remainder of three quarters moves `7` up to `8`. -/
theorem Rnd_spec_witness :
    minInt64 < 7 ∧ (7 : Int) < maxInt64 ∧ Rnd 7 (3 / 4) = 7 + 1 :=
  ⟨by decide, by decide,
    (Rnd_spec 7 (3 / 4) (by decide) (by decide)).1 (by norm_num)⟩

/-- C7, as stated, fails on the negative side: with truncated quotient `-3` and remainder
exactly `-1/2` (true value `-3.5`) the result stays `-3`; it is not `-3 - 1`. -/
theorem Rnd_half_negative_counterexample :
    (-3 : Int) ≤ 0 ∧ Rnd (-3) (-1 / 2) = -3 ∧ Rnd (-3) (-1 / 2) ≠ -3 - 1 := by
  norm_num [Rnd, Round, Roundn, wrap64]

/-- C7, amended: `Rnd` rounds a half toward plus infinity. For every `int64` value `q`
below the maximum, a remainder of exactly `1/2` gives `q + 1` and a remainder of exactly
`-1/2` gives `q` itself. -/
theorem Rnd_half_toward_plus_infinity (q : Int) (hq : inInt64 q) (hhi : q < maxInt64) :
    Rnd q (1 / 2) = q + 1 ∧ Rnd q (-1 / 2) = q := by
  have hu : wrap64 (q + 1) = q + 1 :=
    wrap64_of_inInt64 _ (by unfold inInt64 minInt64 maxInt64 at *; omega)
  constructor
  · unfold Rnd
    rw [if_pos (by norm_num), if_pos (by norm_num [Round]), hu]
  · unfold Rnd
    rw [if_neg (by norm_num), if_neg (by norm_num [Roundn, Round])]

/-- Instance of the amended C7 at `q = -3`. -/
theorem Rnd_half_toward_plus_infinity_witness :
    inInt64 (-3) ∧ (-3 : Int) < maxInt64 ∧
    Rnd (-3) (1 / 2) = -3 + 1 ∧ Rnd (-3) (-1 / 2) = -3 :=
  ⟨by decide, by decide, Rnd_half_toward_plus_infinity (-3) (by decide) (by decide)⟩

/-! ## `DecimalChange` -/

theorem DecimalChange_loop_pow (d : Int) (h1 : 1 ≤ d) (h2 : d ≤ 18) :
    DecimalChange.loop d.toNat (wrap64 (0 + 1)) = 10 ^ d.toNat := by
  interval_cases d <;> decide

/-- For `1 ≤ d ≤ 18` the call returns and leaves `DP = DPf = 10^d`. -/
theorem DecimalChange_pos (c : Config) (d : Int) (h1 : 1 ≤ d) (h2 : d ≤ 18) :
    DecimalChange c d = Outcome.done { DP := 10 ^ d.toNat, DPf := ((10 ^ d.toNat : Int) : ℚ) } := by
  unfold DecimalChange
  rw [if_neg (by omega), if_neg (by unfold MAXDEC; omega)]
  simp only [if_pos (show d > 0 by omega), DecimalChange_loop_pow d h1 h2]

/-- With `d = 0` neither guard fires and `newDecimal` keeps its zero value. -/
theorem DecimalChange_zero_eq (c : Config) :
    DecimalChange c 0 = Outcome.done { DP := 0, DPf := 0 } := by
  simp [DecimalChange, MAXDEC]

/-- C4 at `d = 0`: `DecimalChange(0)` returns normally and leaves `DP = 0` and `DPf = 0`,
whatever the configuration was before; the scale it leaves is not `10^0 = 1`. -/
theorem DecimalChange_zero (c : Config) :
    DecimalChange c 0 = Outcome.done { DP := 0, DPf := 0 } ∧
    (DecimalChange c 0).state.DP ≠ 10 ^ 0 := by
  rw [DecimalChange_zero_eq c]
  exact ⟨rfl, by simp [Outcome.state]⟩

/-- C5: `DecimalChange d` panics with `DLZ` exactly when `d < 0` and with `DTL` exactly
when `d > 18`; it panics in no other case, and whenever it panics `DP` and `DPf` are the
ones from before the call. -/
theorem DecimalChange_errors (c : Config) (d : Int) :
    ((DecimalChange c d).panicMsg = some DLZ ↔ d < 0) ∧
    ((DecimalChange c d).panicMsg = some DTL ↔ d > 18) ∧
    ((DecimalChange c d).panicMsg = none ↔ (0 ≤ d ∧ d ≤ 18)) ∧
    ((DecimalChange c d).panicMsg = none ∨ (DecimalChange c d).state = c) := by
  by_cases h0 : d < 0
  · have hr : DecimalChange c d = Outcome.panicked DLZ c := by
      unfold DecimalChange; rw [if_pos h0]
    rw [hr]
    have h18 : ¬ d > 18 := by omega
    have hne : ¬ (0 ≤ d ∧ d ≤ 18) := by omega
    simp [Outcome.panicMsg, Outcome.state, DLZ, DTL, h0, h18, hne]
  · by_cases h1 : d > 18
    · have hr : DecimalChange c d = Outcome.panicked DTL c := by
        unfold DecimalChange; rw [if_neg h0, if_pos (by unfold MAXDEC; exact h1)]
      rw [hr]
      have hne : ¬ (0 ≤ d ∧ d ≤ 18) := by omega
      simp [Outcome.panicMsg, Outcome.state, DLZ, DTL, h0, h1, hne]
    · have hr : (DecimalChange c d).panicMsg = none := by
        unfold DecimalChange; rw [if_neg h0, if_neg (by unfold MAXDEC; exact h1)]; rfl
      rw [hr]
      have hin : 0 ≤ d ∧ d ≤ 18 := by omega
      simp [h0, h1, hin]

/-! ## Truncation and float-to-integer conversion -/

theorem Guardf_eq : Guardf = 100 := by norm_num [Guardf, Guardi]

theorem Guard_eq : Guard = 100 := rfl

/-- The fraction discarded by truncation toward zero is strictly smaller than one. -/
theorem truncToZero_sub_lt (f : ℚ) :
    -1 < f - (truncToZero f : ℚ) ∧ f - (truncToZero f : ℚ) < 1 := by
  unfold truncToZero
  by_cases h : 0 ≤ f
  · rw [if_pos h]
    have h1 := Int.floor_le f
    have h2 := Int.lt_floor_add_one f
    constructor <;> linarith
  · rw [if_neg h]
    have h1 := Int.le_ceil f
    have h2 := Int.ceil_lt_add_one f
    constructor <;> linarith

theorem truncToZero_intCast (n : Int) : truncToZero (n : ℚ) = n := by
  unfold truncToZero
  split_ifs <;> simp

theorem toInt64_of_inInt64 (f : ℚ) (h : inInt64 (truncToZero f)) :
    toInt64 f = some (truncToZero f) := by
  unfold toInt64
  rw [if_pos h]

/-- Away from the extremes and for a remainder of magnitude below one, `Rnd` returns an
integer at distance at most one half from the exact value `q + t`. -/
theorem Rnd_nearest (q : Int) (t : ℚ) (hlo : minInt64 < q) (hhi : q < maxInt64)
    (h1 : -1 < t) (h2 : t < 1) : |(Rnd q t : ℚ) - ((q : ℚ) + t)| ≤ 1 / 2 := by
  rw [Rnd_eq q t hlo hhi, abs_le]
  split_ifs <;> push_cast <;> constructor <;> linarith

/-- `Setf` overwrites the receiver: its result does not depend on the old raw value. -/
theorem Setf_receiver (c : Config) (m m' : Money) (f : ℚ) :
    Money.Setf c m f = Money.Setf c m' f := rfl

/-! ## `Setf` at the half boundaries (default precision) -/

/-- C8, as stated, fails: at the default precision `Setf(-0.005)` does not store `-1`. -/
theorem Setf_neg_half_counterexample :
    Money.Setf Config.default ⟨0⟩ (-5 / 1000) ≠ some ⟨-1⟩ := by
  decide!

/-- C8, amended: at the default precision (`DP = 100`) `Setf(-0.005)` stores the raw
value `0` (the scaled value `-0.5` truncates to `0` with remainder exactly `-1/2`, which
`Rnd` leaves alone), whereas `Setf(0.005)` stores `1`; this holds for every receiver. -/
theorem Setf_half_boundaries (m : Money) :
    Money.Setf Config.default m (-5 / 1000) = some ⟨0⟩ ∧
    Money.Setf Config.default m (5 / 1000) = some ⟨1⟩ := by
  rw [Setf_receiver Config.default m ⟨0⟩ (-5 / 1000), Setf_receiver Config.default m ⟨0⟩ (5 / 1000)]
  constructor <;> decide!

/-! ## `Div` -/

/-- Unfolding of `Div` for a non-zero divisor when no float operation of the call rounds:
the operands, the two products, the two quotients, the converted integer part and the
remainder are binary64 values. -/
theorem Div_eq (c : Config) (m n : Money) (hN : n.M ≠ 0) (hc : c.DPf = (c.DP : ℚ))
    (hq : inInt64 (truncToZero ((c.DP : ℚ) * (m.M : ℚ) / (n.M : ℚ))))
    (e1 : isF64 (Guardf * c.DPf)) (e2 : isF64 (m.M : ℚ))
    (e3 : isF64 (Guardf * c.DPf * (m.M : ℚ))) (e4 : isF64 (n.M : ℚ))
    (e5 : isF64 (Guardf * c.DPf * (m.M : ℚ) / (n.M : ℚ)))
    (e6 : isF64 ((c.DP : ℚ) * (m.M : ℚ) / (n.M : ℚ)))
    (e7 : isF64 (truncToZero ((c.DP : ℚ) * (m.M : ℚ) / (n.M : ℚ)) : ℚ))
    (e8 : isF64 ((c.DP : ℚ) * (m.M : ℚ) / (n.M : ℚ)
      - (truncToZero ((c.DP : ℚ) * (m.M : ℚ) / (n.M : ℚ)) : ℚ))) :
    Money.Div c m n = some ⟨Rnd (truncToZero ((c.DP : ℚ) * (m.M : ℚ) / (n.M : ℚ)))
      ((c.DP : ℚ) * (m.M : ℚ) / (n.M : ℚ)
        - (truncToZero ((c.DP : ℚ) * (m.M : ℚ) / (n.M : ℚ)) : ℚ))⟩ := by
  have hN' : (n.M : ℚ) ≠ 0 := Int.cast_ne_zero.mpr hN
  have hG : Guardf ≠ 0 := by rw [Guardf_eq]; norm_num
  have hf : Guardf * c.DPf * (m.M : ℚ) / (n.M : ℚ) / Guardf
      = (c.DP : ℚ) * (m.M : ℚ) / (n.M : ℚ) := by
    rw [Guardf_eq, hc]
    field_simp
    ring
  unfold isF64 at e1 e2 e3 e4 e5 e6 e7 e8
  have h5 : fdiv64 (Guardf * c.DPf * (m.M : ℚ)) (n.M : ℚ)
      = some (Guardf * c.DPf * (m.M : ℚ) / (n.M : ℚ)) := by
    unfold fdiv64; rw [if_neg hN', e5]
  have h6 : fdiv64 (Guardf * c.DPf * (m.M : ℚ) / (n.M : ℚ)) Guardf
      = some ((c.DP : ℚ) * (m.M : ℚ) / (n.M : ℚ)) := by
    unfold fdiv64; rw [if_neg hG, hf, e6]
  unfold Money.Div
  simp only [e1, e2, Option.bind_eq_bind, Option.some_bind, e3, e4, h5, h6,
    toInt64_of_inInt64 _ hq, e7, e8]
  rfl

/-- C9, as stated, fails: at the default precision with `M = 15174805130157` and
`N = 40` the divisor is not zero and the quotient `q = 37937012825392.5` is within
`int64`, so `Rnd(t, q - t)` is `37937012825393`; but the product `Guardf*DPf*float64(M)`
is rounded to binary64 and `Div` stores `37937012825392`. -/
theorem Div_rounding_counterexample :
    (40 : Int) ≠ 0 ∧
    inInt64 (truncToZero ((Config.default.DP : ℚ) * ((15174805130157 : Int) : ℚ)
      / ((40 : Int) : ℚ))) ∧
    Rnd (truncToZero ((Config.default.DP : ℚ) * ((15174805130157 : Int) : ℚ)
        / ((40 : Int) : ℚ)))
      ((Config.default.DP : ℚ) * ((15174805130157 : Int) : ℚ) / ((40 : Int) : ℚ)
        - (truncToZero ((Config.default.DP : ℚ) * ((15174805130157 : Int) : ℚ)
          / ((40 : Int) : ℚ)) : ℚ)) = 37937012825393 ∧
    Money.Div Config.default ⟨15174805130157⟩ ⟨40⟩ = some ⟨37937012825392⟩ := by
  refine ⟨by decide, by decide!, by decide!, by decide!⟩

/-- C9, amended: for every receiver raw value `M` and argument raw value `N ≠ 0`, with
`DPf` equal to `DP`, the truncated quotient within `int64`, and no float operation of the
call rounding (`float64(M)`, `float64(N)`, the products `Guardf*DPf` and `Guardf*DPf*M`,
the quotient by `N`, the quotient `q = DP*M/N` of that by `Guardf`, its integer part `t`
and the remainder `q - t` are binary64 values), `Div` stores `Rnd(t, q - t)`; and at the
default precision `Set(0)`, `Setf(19.99)`, then `Div` by a Money set with `Setf(2)`
stores `1000`. -/
theorem Div_spec (c : Config) (M N : Int) (hN : N ≠ 0) (hc : c.DPf = (c.DP : ℚ))
    (hq : inInt64 (truncToZero ((c.DP : ℚ) * (M : ℚ) / (N : ℚ))))
    (e1 : isF64 (Guardf * c.DPf)) (e2 : isF64 (M : ℚ))
    (e3 : isF64 (Guardf * c.DPf * (M : ℚ))) (e4 : isF64 (N : ℚ))
    (e5 : isF64 (Guardf * c.DPf * (M : ℚ) / (N : ℚ)))
    (e6 : isF64 ((c.DP : ℚ) * (M : ℚ) / (N : ℚ)))
    (e7 : isF64 (truncToZero ((c.DP : ℚ) * (M : ℚ) / (N : ℚ)) : ℚ))
    (e8 : isF64 ((c.DP : ℚ) * (M : ℚ) / (N : ℚ)
      - (truncToZero ((c.DP : ℚ) * (M : ℚ) / (N : ℚ)) : ℚ))) :
    Money.Div c ⟨M⟩ ⟨N⟩ = some ⟨Rnd (truncToZero ((c.DP : ℚ) * (M : ℚ) / (N : ℚ)))
      ((c.DP : ℚ) * (M : ℚ) / (N : ℚ) - (truncToZero ((c.DP : ℚ) * (M : ℚ) / (N : ℚ)) : ℚ))⟩ ∧
    ((Money.Setf Config.default ((⟨M⟩ : Money).Set 0) (1999 / 100)).bind fun m =>
      (Money.Setf Config.default ⟨N⟩ 2).bind fun n => Money.Div Config.default m n)
      = some ⟨1000⟩ := by
  refine ⟨Div_eq c ⟨M⟩ ⟨N⟩ hN hc hq e1 e2 e3 e4 e5 e6 e7 e8, ?_⟩
  rw [Setf_receiver Config.default _ ⟨0⟩ (1999 / 100), Setf_receiver Config.default ⟨N⟩ ⟨0⟩ 2]
  decide!

/-- Instance of the amended C9 at the default precision with `M = 1999`, `N = 200`: no
operation rounds (`19990000`, `99950`, `999.5`, `999`, `0.5`) and the quotient `999.5`
is stored as `1000`. -/
theorem Div_spec_witness :
    (200 : Int) ≠ 0 ∧ Config.default.DPf = (Config.default.DP : ℚ) ∧
    isF64 (Guardf * Config.default.DPf * ((1999 : Int) : ℚ) / ((200 : Int) : ℚ)) ∧
    isF64 ((Config.default.DP : ℚ) * ((1999 : Int) : ℚ) / ((200 : Int) : ℚ)) ∧
    Money.Div Config.default ⟨1999⟩ ⟨200⟩ = some ⟨1000⟩ := by
  have h := (Div_spec Config.default 1999 200 (by decide) (by decide!) (by decide!)
    (by decide!) (by decide!) (by decide!) (by decide!) (by decide!) (by decide!)
    (by decide!) (by decide!)).1
  refine ⟨by decide, by decide!, by decide!, by decide!, h.trans ?_⟩
  decide!

/-! ## Integer division truncated toward zero -/

/-- The quotient of a truncated division by a positive divisor lies between zero and
the dividend. -/
theorem tdiv_between (a b : Int) (hb : 0 < b) :
    (0 ≤ a → 0 ≤ Int.tdiv a b ∧ Int.tdiv a b ≤ a) ∧
    (a ≤ 0 → a ≤ Int.tdiv a b ∧ Int.tdiv a b ≤ 0) := by
  constructor
  · intro ha
    rw [Int.tdiv_eq_ediv ha (le_of_lt hb)]
    exact ⟨Int.ediv_nonneg ha (le_of_lt hb), Int.ediv_le_self b ha⟩
  · intro ha
    have hn : 0 ≤ -a := by omega
    have h1 : Int.tdiv a b = -(Int.tdiv (-a) b) := by
      rw [Int.neg_tdiv, neg_neg]
    rw [h1, Int.tdiv_eq_ediv hn (le_of_lt hb)]
    have h2 := Int.ediv_nonneg hn (le_of_lt hb)
    have h3 := Int.ediv_le_self b hn
    constructor <;> omega

/-- The remainder of a truncated division by a positive divisor is smaller than the
divisor in magnitude. -/
theorem tmod_between (a b : Int) (hb : 0 < b) : -b < Int.tmod a b ∧ Int.tmod a b < b := by
  refine ⟨?_, Int.tmod_lt_of_pos a hb⟩
  have h1 : Int.tmod (-a) b = -(Int.tmod a b) := by
    rw [Int.tmod_def, Int.tmod_def, Int.neg_tdiv]
    ring
  have h2 := Int.tmod_lt_of_pos (-a) hb
  omega

theorem tdiv_inInt64 (a b : Int) (ha : inInt64 a) (hb : 0 < b) : inInt64 (Int.tdiv a b) := by
  have h := tdiv_between a b hb
  unfold inInt64 minInt64 maxInt64 at *
  by_cases h0 : 0 ≤ a
  · have := h.1 h0; omega
  · have := h.2 (by omega); omega

/-- Dividing by `100` and then by a positive `d`, both truncating: the result `r` is
strictly inside the `int64` range and misses the exact quotient by less than one. -/
theorem tdiv_tdiv_bounds (i d : Int) (hi : inInt64 i) (hd : 0 < d) :
    minInt64 < Int.tdiv (Int.tdiv i 100) d ∧ Int.tdiv (Int.tdiv i 100) d < maxInt64 ∧
    -1 < (i : ℚ) / 100 / (d : ℚ) - (Int.tdiv (Int.tdiv i 100) d : ℚ) ∧
    (i : ℚ) / 100 / (d : ℚ) - (Int.tdiv (Int.tdiv i 100) d : ℚ) < 1 := by
  have ha := tdiv_between i 100 (by norm_num)
  have hr := tdiv_between (Int.tdiv i 100) d hd
  have e1 := Int.tdiv_add_tmod i 100
  have e2 := Int.tdiv_add_tmod (Int.tdiv i 100) d
  have m1 := tmod_between i 100 (by norm_num)
  have m2 := tmod_between (Int.tdiv i 100) d hd
  have hdq : (0 : ℚ) < (d : ℚ) := Int.cast_pos.mpr hd
  have hrange : minInt64 < Int.tdiv (Int.tdiv i 100) d ∧
      Int.tdiv (Int.tdiv i 100) d < maxInt64 := by
    unfold inInt64 minInt64 maxInt64 at *
    by_cases h0 : 0 ≤ i
    · have h1 := ha.1 h0
      have h2 := hr.1 h1.1
      omega
    · have h1 := ha.2 (by omega)
      have h2 := hr.2 h1.2
      omega
  have hdec : (i : ℚ) / 100 / (d : ℚ) - (Int.tdiv (Int.tdiv i 100) d : ℚ)
      = ((100 * Int.tmod (Int.tdiv i 100) d + Int.tmod i 100 : Int) : ℚ) / (100 * (d : ℚ)) := by
    have e1q : (i : ℚ) = 100 * (Int.tdiv i 100 : ℚ) + (Int.tmod i 100 : ℚ) := by
      exact_mod_cast e1.symm
    have e2q : (Int.tdiv i 100 : ℚ)
        = (d : ℚ) * (Int.tdiv (Int.tdiv i 100) d : ℚ) + (Int.tmod (Int.tdiv i 100) d : ℚ) := by
      exact_mod_cast e2.symm
    push_cast
    field_simp
    rw [e1q]
    nth_rewrite 1 [e2q]
    ring
  have hnum : -(100 * d) < 100 * Int.tmod (Int.tdiv i 100) d + Int.tmod i 100 ∧
      100 * Int.tmod (Int.tdiv i 100) d + Int.tmod i 100 < 100 * d := by
    constructor <;> omega
  have hnq1 : -(100 * (d : ℚ)) < ((100 * Int.tmod (Int.tdiv i 100) d + Int.tmod i 100 : Int) : ℚ) := by
    exact_mod_cast hnum.1
  have hnq2 : ((100 * Int.tmod (Int.tdiv i 100) d + Int.tmod i 100 : Int) : ℚ) < 100 * (d : ℚ) := by
    exact_mod_cast hnum.2
  have hpos : (0 : ℚ) < 100 * (d : ℚ) := by linarith
  refine ⟨hrange.1, hrange.2, ?_, ?_⟩
  · rw [hdec, lt_div_iff₀ hpos]; linarith
  · rw [hdec, div_lt_iff₀ hpos]; linarith

/-! ## `Mulf` -/

/-- Unfolding of `Mulf` when the scale is positive and the intermediates fit in `int64`:
with `k = int64(f*Guardf*DPf)` and `i = M*k`, the stored value is
`Rnd(r, i/Guard/DP - r)` for `r = i / Guard / DP`. -/
theorem Mulf_eq (c : Config) (m : Money) (f : ℚ) (hDP : 0 < c.DP) (hc : c.DPf = (c.DP : ℚ))
    (hk : inInt64 (truncToZero (f * Guardf * c.DPf)))
    (hi : inInt64 (m.M * truncToZero (f * Guardf * c.DPf))) :
    Money.Mulf c m f = some (Outcome.done
      ⟨Rnd (Int.tdiv (Int.tdiv (m.M * truncToZero (f * Guardf * c.DPf)) 100) c.DP)
        (((m.M * truncToZero (f * Guardf * c.DPf) : Int) : ℚ) / 100 / (c.DP : ℚ)
          - (Int.tdiv (Int.tdiv (m.M * truncToZero (f * Guardf * c.DPf)) 100) c.DP : ℚ))⟩) := by
  have hDPq : (c.DP : ℚ) ≠ 0 := Int.cast_ne_zero.mpr (by omega)
  have ha : inInt64 (Int.tdiv (m.M * truncToZero (f * Guardf * c.DPf)) 100) :=
    tdiv_inInt64 _ 100 hi (by norm_num)
  have hr : inInt64 (Int.tdiv (Int.tdiv (m.M * truncToZero (f * Guardf * c.DPf)) 100) c.DP) :=
    tdiv_inInt64 _ c.DP ha hDP
  have h1 : idiv (m.M * truncToZero (f * Guardf * c.DPf)) Guard
      = some (Int.tdiv (m.M * truncToZero (f * Guardf * c.DPf)) 100) := by
    unfold idiv
    rw [Guard_eq, if_neg (by norm_num), wrap64_of_inInt64 _ ha]
  have h2 : idiv (Int.tdiv (m.M * truncToZero (f * Guardf * c.DPf)) 100) c.DP
      = some (Int.tdiv (Int.tdiv (m.M * truncToZero (f * Guardf * c.DPf)) 100) c.DP) := by
    unfold idiv
    rw [if_neg (by omega), wrap64_of_inInt64 _ hr]
  have h3 : fdiv ((m.M * truncToZero (f * Guardf * c.DPf) : Int) : ℚ) Guardf
      = some (((m.M * truncToZero (f * Guardf * c.DPf) : Int) : ℚ) / 100) := by
    unfold fdiv
    rw [Guardf_eq, if_neg (by norm_num)]
  have h4 : fdiv (((m.M * truncToZero (f * Guardf * c.DPf) : Int) : ℚ) / 100) c.DPf
      = some (((m.M * truncToZero (f * Guardf * c.DPf) : Int) : ℚ) / 100 / (c.DP : ℚ)) := by
    unfold fdiv
    rw [hc, if_neg hDPq]
  unfold Money.Mulf
  rw [toInt64_of_inInt64 _ hk]
  simp only [Option.bind_eq_bind, Option.some_bind, wrap64_of_inInt64 _ hi, h1, h2, h3, h4]
  rfl

/-- A division by `Guardf` whose exact quotient is a binary64 value returns it. -/
theorem fdiv64_Guardf (x : ℚ) (h : isF64 (x / 100)) : fdiv64 x Guardf = some (x / 100) := by
  unfold isF64 at h
  unfold fdiv64
  rw [Guardf_eq, if_neg (by norm_num), h]

/-- A division by `DPf` whose exact quotient is a binary64 value returns it. -/
theorem fdiv64_DPf (c : Config) (x : ℚ) (hc : c.DPf = (c.DP : ℚ)) (hDP : (c.DP : ℚ) ≠ 0)
    (h : isF64 (x / (c.DP : ℚ))) : fdiv64 x c.DPf = some (x / (c.DP : ℚ)) := by
  unfold isF64 at h
  unfold fdiv64
  rw [hc, if_neg hDP, h]

/-- Unfolding of the rounded `Mulf64` under the same conditions when, in addition, no
float operation of the call rounds: it stores the same value as `Mulf`. -/
theorem Mulf64_eq (c : Config) (m : Money) (f : ℚ) (hDP : 0 < c.DP) (hc : c.DPf = (c.DP : ℚ))
    (hk : inInt64 (truncToZero (f * Guardf * c.DPf)))
    (hi : inInt64 (m.M * truncToZero (f * Guardf * c.DPf)))
    (x2 : isF64 (f * Guardf)) (x3 : isF64 (f * Guardf * c.DPf))
    (x4 : isF64 ((m.M * truncToZero (f * Guardf * c.DPf) : Int) : ℚ))
    (x5 : isF64 (((m.M * truncToZero (f * Guardf * c.DPf) : Int) : ℚ) / 100))
    (x6 : isF64 (((m.M * truncToZero (f * Guardf * c.DPf) : Int) : ℚ) / 100 / (c.DP : ℚ)))
    (x7 : isF64 (Int.tdiv (Int.tdiv (m.M * truncToZero (f * Guardf * c.DPf)) 100) c.DP : ℚ))
    (x8 : isF64 (((m.M * truncToZero (f * Guardf * c.DPf) : Int) : ℚ) / 100 / (c.DP : ℚ)
      - (Int.tdiv (Int.tdiv (m.M * truncToZero (f * Guardf * c.DPf)) 100) c.DP : ℚ))) :
    Money.Mulf64 c m f = some (Outcome.done
      ⟨Rnd (Int.tdiv (Int.tdiv (m.M * truncToZero (f * Guardf * c.DPf)) 100) c.DP)
        (((m.M * truncToZero (f * Guardf * c.DPf) : Int) : ℚ) / 100 / (c.DP : ℚ)
          - (Int.tdiv (Int.tdiv (m.M * truncToZero (f * Guardf * c.DPf)) 100) c.DP : ℚ))⟩) := by
  have hDPq : (c.DP : ℚ) ≠ 0 := Int.cast_ne_zero.mpr (by omega)
  have ha : inInt64 (Int.tdiv (m.M * truncToZero (f * Guardf * c.DPf)) 100) :=
    tdiv_inInt64 _ 100 hi (by norm_num)
  have hr : inInt64 (Int.tdiv (Int.tdiv (m.M * truncToZero (f * Guardf * c.DPf)) 100) c.DP) :=
    tdiv_inInt64 _ c.DP ha hDP
  have h1 : idiv (m.M * truncToZero (f * Guardf * c.DPf)) Guard
      = some (Int.tdiv (m.M * truncToZero (f * Guardf * c.DPf)) 100) := by
    unfold idiv
    rw [Guard_eq, if_neg (by norm_num), wrap64_of_inInt64 _ ha]
  have h2 : idiv (Int.tdiv (m.M * truncToZero (f * Guardf * c.DPf)) 100) c.DP
      = some (Int.tdiv (Int.tdiv (m.M * truncToZero (f * Guardf * c.DPf)) 100) c.DP) := by
    unfold idiv
    rw [if_neg (by omega), wrap64_of_inInt64 _ hr]
  have h3 := fdiv64_Guardf _ x5
  have h4 := fdiv64_DPf c _ hc hDPq x6
  unfold isF64 at x2 x3 x4 x7 x8
  unfold Money.Mulf64
  simp only [x2, Option.bind_eq_bind, Option.some_bind, x3, toInt64_of_inInt64 _ hk,
    wrap64_of_inInt64 _ hi, h1, h2, x4, h3, h4, x7, x8]
  rfl

/-- C10, as stated, fails: at the default precision with `M = 1000000` (10000.00) and
`f = 0.00005`, every intermediate is within `int64` (`k = 0`, `i = 0`) and `Mulf` stores
`0`, while the exact product `M*f` is `50`; the two differ by more than one half. -/
theorem Mulf_exact_product_counterexample :
    Money.Mulf Config.default ⟨1000000⟩ (5 / 100000) = some (Outcome.done ⟨0⟩) ∧
    ¬ |((0 : Int) : ℚ) - (1000000 : ℚ) * (5 / 100000)| ≤ 1 / 2 := by
  constructor
  · decide!
  · norm_num

/-- C10, amended: with a positive scale `DP` (and `DPf` equal to it), the intermediates
`k = int64(f*Guard*DP)` and `i = M*k` within `int64`, and no float operation of the call
rounding (`f`, `f*Guardf`, `f*Guardf*DPf`, `float64(i)`, `i/Guardf`, `i/Guardf/DPf`,
`float64(r)` for `r = i/Guard/DP` and the remainder are binary64 values), `Mulf(f)`
returns and stores an integer `s`, the same with exact and with rounded float
arithmetic, that is the product `M*k/(Guard*DP)` of `M` with the factor cut to the guard
precision, rounded to a nearest integer: `s` differs from `M*k/(Guard*DP)` by at most
`1/2`, hence from the exact product `M*f` by at most `1/2 + |M|/(Guard*DP)`, and by at
most `1/2` whenever `f*Guard*DP` is an integer. At `DP = 100`, `M = 250` and `f = 3` it
stores `750`. -/
theorem Mulf_guarded_product (c : Config) (M : Int) (f : ℚ)
    (hDP : 0 < c.DP) (hc : c.DPf = (c.DP : ℚ))
    (hk : inInt64 (truncToZero (f * Guardf * c.DPf)))
    (hi : inInt64 (M * truncToZero (f * Guardf * c.DPf)))
    (_ : isF64 f) (x2 : isF64 (f * Guardf)) (x3 : isF64 (f * Guardf * c.DPf))
    (x4 : isF64 ((M * truncToZero (f * Guardf * c.DPf) : Int) : ℚ))
    (x5 : isF64 (((M * truncToZero (f * Guardf * c.DPf) : Int) : ℚ) / 100))
    (x6 : isF64 (((M * truncToZero (f * Guardf * c.DPf) : Int) : ℚ) / 100 / (c.DP : ℚ)))
    (x7 : isF64 (Int.tdiv (Int.tdiv (M * truncToZero (f * Guardf * c.DPf)) 100) c.DP : ℚ))
    (x8 : isF64 (((M * truncToZero (f * Guardf * c.DPf) : Int) : ℚ) / 100 / (c.DP : ℚ)
      - (Int.tdiv (Int.tdiv (M * truncToZero (f * Guardf * c.DPf)) 100) c.DP : ℚ))) :
    (∃ s : Int, Money.Mulf c ⟨M⟩ f = some (Outcome.done ⟨s⟩) ∧
      Money.Mulf64 c ⟨M⟩ f = some (Outcome.done ⟨s⟩) ∧
      |(s : ℚ) - (M : ℚ) * (truncToZero (f * Guardf * c.DPf) : ℚ) / ((Guard : ℚ) * (c.DP : ℚ))|
        ≤ 1 / 2 ∧
      |(s : ℚ) - (M : ℚ) * f| ≤ 1 / 2 + |(M : ℚ)| / ((Guard : ℚ) * (c.DP : ℚ)) ∧
      (∀ z : Int, f * Guardf * c.DPf = (z : ℚ) → |(s : ℚ) - (M : ℚ) * f| ≤ 1 / 2)) ∧
    Money.Mulf Config.default ⟨250⟩ 3 = some (Outcome.done ⟨750⟩) ∧
    Money.Mulf64 Config.default ⟨250⟩ 3 = some (Outcome.done ⟨750⟩) := by
  refine ⟨?_, by decide!, by decide!⟩
  have hb := tdiv_tdiv_bounds (M * truncToZero (f * Guardf * c.DPf)) c.DP hi hDP
  obtain ⟨hlo, hhi, ht1, ht2⟩ := hb
  have hDPq : (0 : ℚ) < (c.DP : ℚ) := Int.cast_pos.mpr hDP
  have hG : (Guard : ℚ) = 100 := by rw [Guard_eq]; norm_num
  have hGD : (0 : ℚ) < (Guard : ℚ) * (c.DP : ℚ) := by rw [hG]; linarith
  have hnear := Rnd_nearest _ _ hlo hhi ht1 ht2
  -- the stored value is within one half of `M*k/(Guard*DP)`
  have hs1 : |((Rnd (Int.tdiv (Int.tdiv (M * truncToZero (f * Guardf * c.DPf)) 100) c.DP)
        (((M * truncToZero (f * Guardf * c.DPf) : Int) : ℚ) / 100 / (c.DP : ℚ)
          - (Int.tdiv (Int.tdiv (M * truncToZero (f * Guardf * c.DPf)) 100) c.DP : ℚ)) : Int) : ℚ)
      - (M : ℚ) * (truncToZero (f * Guardf * c.DPf) : ℚ) / ((Guard : ℚ) * (c.DP : ℚ))| ≤ 1 / 2 := by
    have he : (M : ℚ) * (truncToZero (f * Guardf * c.DPf) : ℚ) / ((Guard : ℚ) * (c.DP : ℚ))
        = (Int.tdiv (Int.tdiv (M * truncToZero (f * Guardf * c.DPf)) 100) c.DP : ℚ)
          + (((M * truncToZero (f * Guardf * c.DPf) : Int) : ℚ) / 100 / (c.DP : ℚ)
            - (Int.tdiv (Int.tdiv (M * truncToZero (f * Guardf * c.DPf)) 100) c.DP : ℚ)) := by
      rw [hG]
      push_cast
      field_simp
      ring
    rw [he]
    exact hnear
  -- the factor cut to the guard precision misses `f` by less than `1/(Guard*DP)`
  have htr := truncToZero_sub_lt (f * Guardf * c.DPf)
  have hfk : |(M : ℚ) * (truncToZero (f * Guardf * c.DPf) : ℚ) / ((Guard : ℚ) * (c.DP : ℚ))
      - (M : ℚ) * f| ≤ |(M : ℚ)| / ((Guard : ℚ) * (c.DP : ℚ)) := by
    have he : (M : ℚ) * (truncToZero (f * Guardf * c.DPf) : ℚ) / ((Guard : ℚ) * (c.DP : ℚ))
        - (M : ℚ) * f
        = (M : ℚ) * ((truncToZero (f * Guardf * c.DPf) : ℚ) - f * Guardf * c.DPf)
          / ((Guard : ℚ) * (c.DP : ℚ)) := by
      rw [hG, Guardf_eq, hc]
      field_simp
      ring
    rw [he, abs_div, abs_mul, abs_of_pos hGD]
    apply div_le_div_of_nonneg_right _ (le_of_lt hGD)
    have h1 : |(truncToZero (f * Guardf * c.DPf) : ℚ) - f * Guardf * c.DPf| ≤ 1 := by
      rw [abs_le]; constructor <;> linarith [htr.1, htr.2]
    calc |(M : ℚ)| * |(truncToZero (f * Guardf * c.DPf) : ℚ) - f * Guardf * c.DPf|
        ≤ |(M : ℚ)| * 1 := mul_le_mul_of_nonneg_left h1 (abs_nonneg _)
      _ = |(M : ℚ)| := mul_one _
  refine ⟨_, Mulf_eq c ⟨M⟩ f hDP hc hk hi,
    Mulf64_eq c ⟨M⟩ f hDP hc hk hi x2 x3 x4 x5 x6 x7 x8, hs1, ?_, ?_⟩
  · calc |_ - (M : ℚ) * f|
        ≤ |_ - (M : ℚ) * (truncToZero (f * Guardf * c.DPf) : ℚ) / ((Guard : ℚ) * (c.DP : ℚ))|
          + |(M : ℚ) * (truncToZero (f * Guardf * c.DPf) : ℚ) / ((Guard : ℚ) * (c.DP : ℚ))
              - (M : ℚ) * f| := abs_sub_le _ _ _
      _ ≤ 1 / 2 + |(M : ℚ)| / ((Guard : ℚ) * (c.DP : ℚ)) := add_le_add hs1 hfk
  · intro z hz
    have hzt : (truncToZero (f * Guardf * c.DPf) : ℚ) = f * Guardf * c.DPf := by
      rw [hz, truncToZero_intCast]
    have he : (M : ℚ) * f
        = (M : ℚ) * (truncToZero (f * Guardf * c.DPf) : ℚ) / ((Guard : ℚ) * (c.DP : ℚ)) := by
      rw [hzt, hG, Guardf_eq, hc]
      field_simp
      ring
    rw [he]
    exact hs1

/-- Instance of the amended C10 at the default precision with `M = 250` and `f = 3`:
`k = 30000`, `i = 7500000`, `r = 750`, no operation rounds, and `750` is stored. -/
theorem Mulf_guarded_product_witness :
    0 < Config.default.DP ∧ Config.default.DPf = (Config.default.DP : ℚ) ∧
    inInt64 (truncToZero (3 * Guardf * Config.default.DPf)) ∧
    inInt64 (250 * truncToZero (3 * Guardf * Config.default.DPf)) ∧
    isF64 3 ∧ isF64 (3 * Guardf) ∧ isF64 (3 * Guardf * Config.default.DPf) ∧
    Money.Mulf Config.default ⟨250⟩ 3 = some (Outcome.done ⟨750⟩) ∧
    Money.Mulf64 Config.default ⟨250⟩ 3 = some (Outcome.done ⟨750⟩) :=
  ⟨by decide, by decide!, by decide!, by decide!, by decide!, by decide!, by decide!,
    (Mulf_guarded_product Config.default 250 3 (by decide) (by decide!) (by decide!)
      (by decide!) (by decide!) (by decide!) (by decide!) (by decide!) (by decide!)
      (by decide!) (by decide!) (by decide!)).2⟩

/-- Where a float operation rounds, exact and rounded arithmetic can part: at the default
precision with `M = 141818745793831` and `f = 33/16` the product `i = M*20625` is not a
binary64 value; the rounded `Mulf64` stores `292501163199777` and the exact `Mulf`
stores `292501163199776`. -/
theorem Mulf64_rounding_example :
    ¬ isF64 (((141818745793831 * 20625 : Int) : ℚ)) ∧
    Money.Mulf64 Config.default ⟨141818745793831⟩ (33 / 16)
      = some (Outcome.done ⟨292501163199777⟩) ∧
    Money.Mulf Config.default ⟨141818745793831⟩ (33 / 16)
      = some (Outcome.done ⟨292501163199776⟩) := by
  refine ⟨by decide!, by decide!, by decide!⟩

/-! ## `DecimalChange`, then `Setf`, then `Get` -/

/-- C6 at `places = 0`: after `DecimalChange(0)` the scale is zero, so for every decimal
`x` (for instance `x = 5`) and every receiver `Setf(x)` stores the raw value `0`, and
`Get()` divides by `DPf = 0` and returns no number at all; nothing within `10^0 = 1` of
`x` comes back. -/
theorem Setf_Get_places_zero (c : Config) (m : Money) (x : ℚ) :
    Money.Setf (DecimalChange c 0).state m x = some ⟨0⟩ ∧
    Money.Get (DecimalChange c 0).state ⟨0⟩ = none := by
  rw [DecimalChange_zero_eq c]
  have h0 : toInt64 (x * 0) = some 0 := by
    rw [mul_zero]; decide!
  constructor
  · simp only [Outcome.state, Money.Setf, h0, Option.bind_eq_bind, Option.some_bind]
    have hR : Rnd 0 (x * 0 - ((0 : Int) : ℚ)) = 0 := by
      rw [mul_zero, Int.cast_zero, sub_zero]; decide!
    rw [hR]
    rfl
  · simp [Outcome.state, Money.Get, fdiv]

/-- For `1 ≤ places ≤ 18` the round trip does hold in exact arithmetic: when the scaled value truncates
strictly inside the `int64` range, `Setf(x)` stores some `s` and `Get()` then returns
`s / 10^places`, which is within `10^-places` of `x`. -/
theorem Setf_Get_within (c : Config) (m : Money) (d : Int) (x : ℚ) (h1 : 1 ≤ d) (h2 : d ≤ 18)
    (hlo : minInt64 < truncToZero (x * (10 : ℚ) ^ d.toNat))
    (hhi : truncToZero (x * (10 : ℚ) ^ d.toNat) < maxInt64) :
    ∃ (s : Int) (y : ℚ), Money.Setf (DecimalChange c d).state m x = some ⟨s⟩ ∧
      Money.Get (DecimalChange c d).state ⟨s⟩ = some y ∧
      |y - x| ≤ 1 / (10 : ℚ) ^ d.toNat := by
  rw [DecimalChange_pos c d h1 h2]
  have hcast : (((10 : Int) ^ d.toNat : Int) : ℚ) = (10 : ℚ) ^ d.toNat := by push_cast; rfl
  simp only [Outcome.state, hcast]
  have hpos : (0 : ℚ) < (10 : ℚ) ^ d.toNat := by positivity
  have hin : inInt64 (truncToZero (x * (10 : ℚ) ^ d.toNat)) :=
    ⟨le_of_lt hlo, le_of_lt hhi⟩
  have hnear := Rnd_nearest (truncToZero (x * (10 : ℚ) ^ d.toNat))
    (x * (10 : ℚ) ^ d.toNat - (truncToZero (x * (10 : ℚ) ^ d.toNat) : ℚ)) hlo hhi
    (truncToZero_sub_lt _).1 (truncToZero_sub_lt _).2
  refine ⟨Rnd (truncToZero (x * (10 : ℚ) ^ d.toNat))
      (x * (10 : ℚ) ^ d.toNat - (truncToZero (x * (10 : ℚ) ^ d.toNat) : ℚ)),
    (Rnd (truncToZero (x * (10 : ℚ) ^ d.toNat))
      (x * (10 : ℚ) ^ d.toNat - (truncToZero (x * (10 : ℚ) ^ d.toNat) : ℚ)) : ℚ)
        / (10 : ℚ) ^ d.toNat, ?_, ?_, ?_⟩
  · simp only [Money.Setf, toInt64_of_inInt64 _ hin, Option.bind_eq_bind, Option.some_bind]
    rfl
  · simp only [Money.Get, fdiv, if_neg (ne_of_gt hpos)]
  · have he : ∀ s : ℚ, s / (10 : ℚ) ^ d.toNat - x = (s - x * (10 : ℚ) ^ d.toNat) / (10 : ℚ) ^ d.toNat := by
      intro s; field_simp; ring
    rw [he, abs_div, abs_of_pos hpos]
    apply div_le_div_of_nonneg_right _ (le_of_lt hpos)
    have h3 : ∀ s t : ℚ, s - t = s - ((truncToZero t : ℚ) + (t - (truncToZero t : ℚ))) := by
      intro s t; ring
    rw [h3]
    linarith

/-! ## `Mul` against `Mulf` -/

/-- C11: at the default precision (`DP = 100`) there are raw values `M` and `N` for which
`Mul` by the Money `N` and `Mulf` by the decimal `N/100` both return and store different
raw values; with `M = 1` and `N = 50`, `Mul` stores `0` and `Mulf(0.5)` stores `1`. -/
theorem Mul_Mulf_diverge :
    (∃ M N s t : Int, Money.Mul Config.default ⟨M⟩ ⟨N⟩ = Outcome.done ⟨s⟩ ∧
      Money.Mulf Config.default ⟨M⟩ ((N : ℚ) / 100) = some (Outcome.done ⟨t⟩) ∧ s ≠ t) ∧
    Money.Mul Config.default ⟨1⟩ ⟨50⟩ = Outcome.done ⟨0⟩ ∧
    Money.Mulf Config.default ⟨1⟩ (50 / 100) = some (Outcome.done ⟨1⟩) := by
  have h1 : Money.Mul Config.default ⟨1⟩ ⟨50⟩ = Outcome.done ⟨0⟩ := by decide
  have h2 : Money.Mulf Config.default ⟨1⟩ (((50 : Int) : ℚ) / 100) = some (Outcome.done ⟨1⟩) := by
    decide!
  have h3 : Money.Mulf Config.default ⟨1⟩ (50 / 100) = some (Outcome.done ⟨1⟩) := by decide!
  exact ⟨⟨1, 50, 0, 1, h1, h2, by decide⟩, h1, h3⟩

/-! ## `Neg`, `Abs` and `Sign` -/

/-- Away from the smallest `int64`, `Abs` leaves the absolute value. -/
theorem Abs_eq (M : Int) (hM : inInt64 M) (hne : M ≠ minInt64) :
    Money.Abs ⟨M⟩ = ⟨|M|⟩ := by
  unfold Money.Abs
  by_cases h : M < 0
  · have h0 : M ≠ 0 := by omega
    have hw : wrap64 (M * -1) = -M := by
      rw [wrap64_of_inInt64]
      · ring
      · unfold inInt64 minInt64 maxInt64 at *; omega
    simp only [if_pos h, Money.Neg, ne_eq, h0, not_false_eq_true, if_true, hw, abs_of_neg h]
  · simp only [if_neg h, abs_of_nonneg (not_lt.mp h)]

/-- C16 at `M = -2^63`: the negation inside `Abs` wraps around, so the receiver still
holds `-2^63` after the call; the raw value is negative, not `|M| = 2^63`. -/
theorem Abs_minInt64 :
    inInt64 minInt64 ∧ (Money.Abs ⟨minInt64⟩).M = minInt64 ∧ (Money.Abs ⟨minInt64⟩).M < 0 ∧
    (Money.Abs ⟨minInt64⟩).M ≠ |minInt64| := by
  decide

/-- C17: for every raw value `M`, `Sign` returns `+1` when `M ≥ 0` (zero included) and
`-1` when `M < 0`, and the receiver still holds `M`. -/
theorem Sign_spec (M : Int) :
    (0 ≤ M → (Money.Sign ⟨M⟩).1 = 1) ∧ (M < 0 → (Money.Sign ⟨M⟩).1 = -1) ∧
    (Money.Sign ⟨M⟩).2 = ⟨M⟩ := by
  unfold Money.Sign
  by_cases h : M < 0
  · rw [if_pos h]
    exact ⟨fun h0 => absurd h (not_lt.mpr h0), fun _ => rfl, rfl⟩
  · rw [if_neg h]
    exact ⟨fun _ => rfl, fun h0 => absurd h0 h, rfl⟩

/-! ## `FVGA` and `Interest` -/

/-- For `r ≠ g` and defined powers, `FVGA` (in exact arithmetic) passes
`(1+r)^n - (1+g)^n/(r-g)` to `Mulf`: only the second power is divided by `r - g`. -/
theorem FVGA_eq (c : Config) (m : Money) (r g : ℚ) (n : Int) (hrg : r ≠ g) (hn : 0 ≤ n) :
    Money.FVGA c m r g n = Money.Mulf c m ((1 + r) ^ n - (1 + g) ^ n / (r - g)) := by
  have hI : ∀ x : ℚ, I x n = some ((1 + x) ^ n) := by
    intro x
    unfold I
    rw [if_neg (fun h => absurd h.2 (not_lt.mpr hn))]
  have hd : fdiv ((1 + g) ^ n) (r - g) = some ((1 + g) ^ n / (r - g)) := by
    unfold fdiv
    rw [if_neg (sub_ne_zero.mpr hrg)]
  unfold Money.FVGA
  rw [if_neg hrg, hI r, hI g]
  simp only [Option.bind_eq_bind, Option.some_bind, hd]

/-- C18 at `r = 0.5`, `g = 0.25`, `n = 2` and a payment of 100.00 (default precision),
where every float operation is exact: the documented factor
`((1+r)^n - (1+g)^n)/(r-g)` is `(2.25 - 1.5625)/0.25 = 2.75` and `Mulf` by it stores
`27500`, while `FVGA` stores `-40000`; the factor it hands to `Mulf` is
`(1+r)^n - (1+g)^n/(r-g) = 2.25 - 6.25 = -4`. -/
theorem FVGA_not_documented_factor :
    (1 / 2 : ℚ) ≠ 1 / 4 ∧ documentedFVGAFactor (1 / 2) (1 / 4) 2 = 11 / 4 ∧
    Money.Mulf Config.default ⟨10000⟩ (documentedFVGAFactor (1 / 2) (1 / 4) 2)
      = some (Outcome.done ⟨27500⟩) ∧
    Money.FVGA Config.default ⟨10000⟩ (1 / 2) (1 / 4) 2 = some (Outcome.done ⟨-40000⟩) := by
  refine ⟨by norm_num, by norm_num [documentedFVGAFactor], by decide!, by decide!⟩

/-- C19 at `pv = 100.00`, `r = 0.1`, `n = 1` (default precision): the documented simple
interest `pv * r * n` is `10.00` (`Mulf` by `r * n` stores `1000`), while `Interest`
stores `11000`, the compounded value `pv * (1+r)^n = 110.00`. -/
theorem Interest_not_simple :
    documentedInterestFactor (1 / 10) 1 = 1 / 10 ∧
    Money.Mulf Config.default ⟨10000⟩ (documentedInterestFactor (1 / 10) 1)
      = some (Outcome.done ⟨1000⟩) ∧
    Money.Interest Config.default ⟨10000⟩ (1 / 10) 1 = some (Outcome.done ⟨11000⟩) := by
  refine ⟨by norm_num [documentedInterestFactor], by decide!, by decide!⟩

/-- For defined powers, `Interest` (in exact arithmetic) multiplies by the compound
factor `(1+r)^n`. -/
theorem Interest_eq (c : Config) (m : Money) (r : ℚ) (n : Int) (hn : 0 ≤ n) :
    Money.Interest c m r n = Money.Mulf c m ((1 + r) ^ n) := by
  unfold Money.Interest I
  rw [if_neg (fun h => absurd h.2 (not_lt.mpr hn))]
  simp only [Option.bind_eq_bind, Option.some_bind]

/-! ## `Mul` -/

/-- For a dividend that is not positive the remainder of a truncated division is not
positive either. -/
theorem tmod_nonpos (a b : Int) (ha : a ≤ 0) : Int.tmod a b ≤ 0 := by
  have h1 : Int.tmod (-a) b = -(Int.tmod a b) := by
    rw [Int.tmod_def, Int.tmod_def, Int.neg_tdiv]
    ring
  have h2 := Int.tmod_nonneg b (show 0 ≤ -a by omega)
  omega

/-- Integer division by a positive divisor is the exact quotient truncated toward zero. -/
theorem truncToZero_div (a b : Int) (hb : 0 < b) :
    truncToZero ((a : ℚ) / (b : ℚ)) = Int.tdiv a b := by
  have hbq : (0 : ℚ) < (b : ℚ) := Int.cast_pos.mpr hb
  have e : (a : ℚ) = (b : ℚ) * (Int.tdiv a b : ℚ) + (Int.tmod a b : ℚ) := by
    exact_mod_cast (Int.tdiv_add_tmod a b).symm
  have hx : (a : ℚ) / (b : ℚ) = (Int.tdiv a b : ℚ) + (Int.tmod a b : ℚ) / (b : ℚ) := by
    field_simp
    rw [e]
    ring
  have hm := tmod_between a b hb
  have hm1 : -(b : ℚ) < (Int.tmod a b : ℚ) := by exact_mod_cast hm.1
  have hm2 : (Int.tmod a b : ℚ) < (b : ℚ) := by exact_mod_cast hm.2
  have hf1 : -1 < (Int.tmod a b : ℚ) / (b : ℚ) := by
    rw [lt_div_iff₀ hbq]; linarith
  have hf2 : (Int.tmod a b : ℚ) / (b : ℚ) < 1 := by
    rw [div_lt_iff₀ hbq]; linarith
  unfold truncToZero
  by_cases ha : 0 ≤ a
  · have hq : (0 : ℚ) ≤ (a : ℚ) / (b : ℚ) :=
      div_nonneg (Int.cast_nonneg.mpr ha) (le_of_lt hbq)
    have hr : (0 : ℚ) ≤ (Int.tmod a b : ℚ) / (b : ℚ) :=
      div_nonneg (Int.cast_nonneg.mpr (Int.tmod_nonneg b ha)) (le_of_lt hbq)
    rw [if_pos hq, Int.floor_eq_iff]
    constructor <;> linarith
  · have ha' : a < 0 := not_le.mp ha
    have hq : ¬ (0 : ℚ) ≤ (a : ℚ) / (b : ℚ) := by
      rw [not_le]
      exact div_neg_of_neg_of_pos (Int.cast_lt_zero.mpr ha') hbq
    have hr : (Int.tmod a b : ℚ) / (b : ℚ) ≤ 0 :=
      div_nonpos_of_nonpos_of_nonneg (Int.cast_nonpos.mpr (tmod_nonpos a b (le_of_lt ha')))
        (le_of_lt hbq)
    rw [if_neg hq, Int.ceil_eq_iff]
    constructor <;> linarith

/-- Unfolding of `Mul` for a positive scale and a product within `int64`. -/
theorem Mul_eq (c : Config) (m n : Money) (hDP : 0 < c.DP) (hMN : inInt64 (m.M * n.M)) :
    Money.Mul c m n = Outcome.done ⟨Int.tdiv (m.M * n.M) c.DP⟩ := by
  have hq : inInt64 (Int.tdiv (m.M * n.M) c.DP) := tdiv_inInt64 _ _ hMN hDP
  unfold Money.Mul idiv
  rw [wrap64_of_inInt64 _ hMN, if_neg (by omega), wrap64_of_inInt64 _ hq]
  rfl

/-- C12: for a receiver `m` holding `M` and an argument `n` holding `N`, with `M*N`
within `int64` and `DP > 0`, the call `m.Mul(n)` returns; the receiver then holds the
integer quotient `(M*N)/DP`, which is the exact quotient truncated toward zero (nothing
is rounded), and when the argument is a different Money it still holds `N`. -/
theorem Mul_truncates (c : Config) (h : Store) (m n : Nat) (hDP : 0 < c.DP)
    (hMN : inInt64 ((h m).M * (h n).M)) :
    ∃ h1 : Store, Money.MulAt c h m n = Outcome.done h1 ∧
      (h1 m).M = Int.tdiv ((h m).M * (h n).M) c.DP ∧
      (h1 m).M = truncToZero ((((h m).M * (h n).M : Int) : ℚ) / (c.DP : ℚ)) ∧
      (n ≠ m → (h1 n).M = (h n).M) := by
  refine ⟨h.write m ⟨Int.tdiv ((h m).M * (h n).M) c.DP⟩, ?_, ?_, ?_, ?_⟩
  · unfold Money.MulAt
    rw [Mul_eq c (h m) (h n) hDP hMN]
  · simp [Store.write]
  · rw [truncToZero_div _ _ hDP]
    simp [Store.write]
  · intro hne
    simp [Store.write, hne]

/-- Instance of C12 at the default precision: receiver `2.50` at address `0`, argument
`0.33` at address `1`; the receiver gets `250*33/100 = 82` (from `82.5`, not rounded)
and the argument keeps `33`. -/
theorem Mul_truncates_witness :
    0 < Config.default.DP ∧ inInt64 ((250 : Int) * 33) ∧
    ∃ h1 : Store,
      Money.MulAt Config.default (fun p => if p = 0 then ⟨250⟩ else ⟨33⟩) 0 1 = Outcome.done h1 ∧
      (h1 0).M = 82 ∧ (h1 1).M = 33 := by
  refine ⟨by decide, by decide, ?_⟩
  obtain ⟨h1, e1, e2, _, e4⟩ :=
    Mul_truncates Config.default (fun p => if p = 0 then ⟨250⟩ else ⟨33⟩) 0 1 (by decide)
      (by decide)
  exact ⟨h1, e1, e2.trans (by decide), (e4 (by decide)).trans (by decide)⟩

/-! ## Division by the scale: run-time failures -/

/-- With a zero scale, and whatever `DPf` is, `Mulf` panics for every factor: the
conversion of `f*Guardf*0` succeeds and the division by `DP` fails. -/
theorem Mulf_zero_scale (m : Money) (f : ℚ) :
    Money.Mulf { DP := 0, DPf := 0 } m f = some (Outcome.panicked divideError m) := by
  have hk : toInt64 (f * Guardf * 0) = some 0 := by
    rw [mul_zero]; decide!
  have hi : idiv (wrap64 (m.M * 0)) Guard = some 0 := by
    rw [mul_zero]; decide
  have hd : idiv 0 0 = none := by decide
  simp only [Money.Mulf, hk, Option.bind_eq_bind, Option.some_bind, hi, hd]
  rfl

/-- C14 at `d = 0`: after `DecimalChange(0)`, which returns normally, each of `Gett`,
`Mul`, `Mulf` and `String` panics with the run-time error of an integer division by
zero, for every raw value, argument and factor. -/
theorem ops_panic_after_DecimalChange_zero (c : Config) (m n : Money) (f : ℚ) :
    (DecimalChange c 0).panicMsg = none ∧
    (Money.Gett (DecimalChange c 0).state m).panicMsg = some divideError ∧
    (Money.Mul (DecimalChange c 0).state m n).panicMsg = some divideError ∧
    Money.Mulf (DecimalChange c 0).state m f = some (Outcome.panicked divideError m) ∧
    (Money.String (DecimalChange c 0).state m).panicMsg = some divideError := by
  rw [DecimalChange_zero_eq c]
  refine ⟨rfl, ?_, ?_, Mulf_zero_scale m f, ?_⟩
  · simp [Outcome.state, Money.Gett, idiv, Ret.panicMsg]
  · simp [Outcome.state, Money.Mul, idiv, Outcome.panicMsg]
  · simp [Outcome.state, Money.String, idiv, imod, Ret.panicMsg]

/-- With a non-zero scale none of `Gett`, `Mul`, `Mulf` and `String` panics. -/
theorem ops_no_panic (c : Config) (m n : Money) (f : ℚ) (hDP : c.DP ≠ 0) :
    (Money.Gett c m).panicMsg = none ∧ (Money.Mul c m n).panicMsg = none ∧
    (∀ msg s, Money.Mulf c m f ≠ some (Outcome.panicked msg s)) ∧
    (Money.String c m).panicMsg = none := by
  refine ⟨?_, ?_, ?_, ?_⟩
  · simp [Money.Gett, idiv, hDP, Ret.panicMsg]
  · simp [Money.Mul, idiv, hDP, Outcome.panicMsg]
  · intro msg s
    unfold Money.Mulf
    cases hk : toInt64 (f * Guardf * c.DPf) with
    | none => simp
    | some k =>
      have hG : Guard ≠ 0 := by decide
      simp only [Option.bind_eq_bind, Option.some_bind, idiv, hG, hDP, if_false]
      cases hg : fdiv (↑(wrap64 (m.M * k))) Guardf with
      | none => simp
      | some g =>
        cases ht : fdiv g c.DPf with
        | none => simp [ht]
        | some t => simp [ht]
  · simp [Money.String, idiv, imod, hDP, Ret.panicMsg]

/-- The scales reached by the default and by `DecimalChange(d)` for `1 ≤ d ≤ 18` are
not zero. -/
theorem scale_ne_zero (c : Config) (d : Int) (h1 : 1 ≤ d) (h2 : d ≤ 18) :
    Config.default.DP ≠ 0 ∧ (DecimalChange c d).state.DP ≠ 0 := by
  rw [DecimalChange_pos c d h1 h2]
  refine ⟨by decide, ?_⟩
  simp [Outcome.state]

/-! ## The scale against the guard multiplier -/

/-- C15, as stated, fails at the cap: `places = 18 = MAXDEC` is accepted and sets
`DP = 10^18`, and `Guard * 10^18 = 10^20` is larger than `2^63 - 1`. -/
theorem guard_scale_counterexample :
    (0 : Int) ≤ 18 ∧ (18 : Int) ≤ MAXDEC ∧
    (DecimalChange Config.default 18).state.DP = 10 ^ 18 ∧
    ¬ (Guard * 10 ^ 18 ≤ maxInt64) := by
  decide

/-- C15, amended: for every `places` accepted by `DecimalChange`
(`0 ≤ places ≤ MAXDEC = 18`) the scale factor `10^places` itself is representable as a
signed 64-bit integer; multiplied by `Guard = 100` it is representable exactly when
`places ≤ 16`. -/
theorem guard_scale_fits_iff (d : Int) (h0 : 0 ≤ d) (h1 : d ≤ MAXDEC) :
    (10 : Int) ^ d.toNat ≤ maxInt64 ∧ (Guard * 10 ^ d.toNat ≤ maxInt64 ↔ d ≤ 16) := by
  unfold MAXDEC at h1
  interval_cases d <;> decide

/-- Instance of the amended C15 at `places = 17`: the scale fits, the guarded scale
does not. -/
theorem guard_scale_fits_iff_witness :
    (0 : Int) ≤ 17 ∧ (17 : Int) ≤ MAXDEC ∧ (10 : Int) ^ 17 ≤ maxInt64 ∧
    ¬ (Guard * 10 ^ 17 ≤ maxInt64) := by
  have h := guard_scale_fits_iff 17 (by decide) (by decide)
  exact ⟨by decide, by decide, h.1, fun hle => absurd (h.2.mp hle) (by decide)⟩

/-! ## The text produced by `String` -/

theorem digitChar_ne_point (k : Nat) (hk : k < 10) : Nat.digitChar k ≠ '.' := by
  interval_cases k <;> decide

/-- The decimal digits of a number contain no point. -/
theorem toDigitsCore_no_point (fuel : Nat) :
    ∀ (n : Nat) (ds : List Char), (∀ ch ∈ ds, ch ≠ '.') →
      ∀ ch ∈ Nat.toDigitsCore 10 fuel n ds, ch ≠ '.' := by
  induction fuel with
  | zero =>
    intro n ds h ch hch
    exact h ch (by simpa [Nat.toDigitsCore] using hch)
  | succ fuel ih =>
    intro n ds h ch hch
    have hd : ∀ x ∈ Nat.digitChar (n % 10) :: ds, x ≠ '.' := by
      intro x hx
      rcases List.mem_cons.mp hx with rfl | hx
      · exact digitChar_ne_point _ (Nat.mod_lt _ (by norm_num))
      · exact h x hx
    unfold Nat.toDigitsCore at hch
    by_cases h0 : n / 10 = 0
    · simp only [h0, if_true] at hch
      exact hd ch hch
    · simp only [h0, if_false] at hch
      exact ih (n / 10) _ hd ch hch

theorem repr_no_point (n : Nat) : ∀ ch ∈ (Nat.repr n).data, ch ≠ '.' := by
  intro ch hch
  have h := toDigitsCore_no_point (n + 1) n [] (by simp) ch
  apply h
  simpa [Nat.repr, Nat.toDigits, List.asString] using hch

theorem fmtD_no_point (x : Int) : ∀ ch ∈ (fmtD x).data, ch ≠ '.' := by
  intro ch hch
  unfold fmtD at hch
  by_cases hx : x < 0
  · rw [if_pos hx, String.data_append] at hch
    rcases List.mem_append.mp hch with h1 | h1
    · have : ch = '-' := by simpa using h1
      rw [this]; decide
    · exact repr_no_point _ ch h1
  · rw [if_neg hx] at hch
    exact repr_no_point _ ch hch

theorem dropWhile_point (l t : List Char) (h : ∀ ch ∈ l, ch ≠ '.') :
    (l ++ '.' :: t).dropWhile (fun ch => ch != '.') = '.' :: t := by
  induction l with
  | nil => simp [List.dropWhile]
  | cons a l ih =>
    have ha : a ≠ '.' := h a (List.mem_cons_self a l)
    have hl : ∀ ch ∈ l, ch ≠ '.' := fun ch hch => h ch (List.mem_cons_of_mem a hch)
    have hb : (a != '.') = true := by simp [ha]
    rw [List.cons_append, List.dropWhile_cons, hb, if_pos rfl]
    exact ih hl

/-- After the point of `"%d.%02d"` comes the second field, whole. -/
theorem afterPoint_fmt (a : Int) (t : Text) :
    afterPoint (fmtD a ++ "." ++ t) = t.data := by
  unfold afterPoint
  have hd : (fmtD a ++ "." ++ t).toList = (fmtD a).data ++ '.' :: t.data := by
    simp [String.toList, String.data_append]
  rw [hd, dropWhile_point _ _ (fmtD_no_point a)]
  rfl

/-- A non-negative number formatted with `%02d` takes at least two characters, and
exactly two when it is below one hundred. -/
theorem fmt02d_length (b : Int) (hb : 0 ≤ b) :
    2 ≤ (fmt02d b).data.length ∧ (b < 100 → (fmt02d b).data.length = 2) := by
  unfold fmt02d
  rw [if_neg (not_lt.mpr hb)]
  have hlen : (String.mk (List.replicate (2 - (Nat.repr b.natAbs).length) '0')
      ++ Nat.repr b.natAbs).data.length
      = (2 - (Nat.repr b.natAbs).length) + (Nat.repr b.natAbs).length := by
    rw [String.data_append, List.length_append]
    show (List.replicate _ '0').length + (Nat.repr b.natAbs).data.length = _
    rw [List.length_replicate]
    rfl
  rw [hlen]
  refine ⟨by omega, ?_⟩
  intro h100
  have hn : b.natAbs < 10 ^ 2 := by omega
  have h2 := Nat.repr_length b.natAbs 2 (by norm_num) hn
  omega

/-- Unfolding of `String` for a positive scale, away from the smallest `int64`. -/
theorem String_eq (c : Config) (M : Int) (hM : inInt64 M) (hne : M ≠ minInt64)
    (hDP : 0 < c.DP) :
    Money.String c ⟨M⟩
      = Ret.ret (fmtD (Int.tdiv M c.DP) ++ "." ++ fmt02d (Int.tmod |M| c.DP)) ⟨|M|⟩ := by
  have hq : inInt64 (Int.tdiv M c.DP) := tdiv_inInt64 _ _ hM hDP
  have h0 : c.DP ≠ 0 := by omega
  simp only [Money.String, Money.Value, Abs_eq M hM hne, idiv, imod, if_neg h0,
    wrap64_of_inInt64 _ hq]

/-- C13 at `d = 4`: after `DecimalChange(4)` a Money holding `12345` (the amount
`1.2345`) prints as `1.2345`, with four digits after the point, not two; and a Money
holding `10005` (the amount `1.0005`) prints as `1.05`. -/
theorem String_after_DecimalChange_four :
    (0 : Int) ≤ 4 ∧ (4 : Int) ≤ 18 ∧
    Money.String (DecimalChange Config.default 4).state ⟨12345⟩
      = Ret.ret ("1.2345") ⟨12345⟩ ∧
    afterPoint ("1.2345") = ['2', '3', '4', '5'] ∧
    (afterPoint ("1.2345")).length ≠ 2 ∧
    Money.String (DecimalChange Config.default 4).state ⟨10005⟩
      = Ret.ret ("1.05") ⟨10005⟩ := by
  decide

/-- What `String` puts after the point: for every precision set by `DecimalChange(d)`
with `1 ≤ d ≤ 18` and every `int64` raw value `M` other than `-2^63`, it is the
remainder `|M| mod 10^d` formatted with `%02d`; that has at least two characters, and
exactly two when `d ≤ 2`, the default two places included. -/
theorem String_fraction_width (c : Config) (d M : Int) (h1 : 1 ≤ d) (h2 : d ≤ 18)
    (hM : inInt64 M) (hne : M ≠ minInt64) :
    ∃ t : Text, (Money.String (DecimalChange c d).state ⟨M⟩).value = some t ∧
      afterPoint t = (fmt02d (Int.tmod |M| (10 ^ d.toNat))).data ∧
      2 ≤ (afterPoint t).length ∧ (d ≤ 2 → (afterPoint t).length = 2) := by
  rw [DecimalChange_pos c d h1 h2]
  have hpos : (0 : Int) < 10 ^ d.toNat := by positivity
  have hb0 : 0 ≤ Int.tmod |M| (10 ^ d.toNat) := Int.tmod_nonneg _ (abs_nonneg M)
  have hlen := fmt02d_length (Int.tmod |M| (10 ^ d.toNat)) hb0
  refine ⟨fmtD (Int.tdiv M (10 ^ d.toNat)) ++ "." ++ fmt02d (Int.tmod |M| (10 ^ d.toNat)),
    ?_, afterPoint_fmt _ _, ?_, ?_⟩
  · simp only [Outcome.state]
    rw [String_eq _ M hM hne hpos]
    rfl
  · rw [afterPoint_fmt]
    exact hlen.1
  · intro hd
    rw [afterPoint_fmt]
    apply hlen.2
    have hlt := Int.tmod_lt_of_pos |M| hpos
    have hle : (10 : Int) ^ d.toNat ≤ 100 := by
      interval_cases d <;> decide
    omega

/-! ## `String` writes to its receiver -/

/-- C20: with a positive scale (so that `String` returns) and an `int64` raw value `M`:
for `M < 0`, `M ≠ -2^63` the call returns and leaves the receiver holding `-M`; for
`M ≥ 0` it returns and leaves `M`. The text it returns for `M ≠ -2^63` has as integer
field the quotient `M/DP` of the value read before `Abs` ran (and `|M| mod DP` after the
point), so when that quotient is negative the text begins with a minus sign. -/
theorem String_not_read_only (c : Config) (M : Int) (hM : inInt64 M) (hDP : 0 < c.DP) :
    (M < 0 → M ≠ minInt64 →
      (Money.String c ⟨M⟩).panicMsg = none ∧ (Money.String c ⟨M⟩).state = ⟨-M⟩) ∧
    (0 ≤ M → (Money.String c ⟨M⟩).panicMsg = none ∧ (Money.String c ⟨M⟩).state = ⟨M⟩) ∧
    (M ≠ minInt64 → (Money.String c ⟨M⟩).value
      = some (fmtD (Int.tdiv M c.DP) ++ "." ++ fmt02d (Int.tmod |M| c.DP))) ∧
    (M ≠ minInt64 → Int.tdiv M c.DP < 0 →
      ∃ t : Text, (Money.String c ⟨M⟩).value = some t ∧ t.data.head? = some '-') := by
  refine ⟨?_, ?_, ?_, ?_⟩
  · intro hneg hne
    rw [String_eq c M hM hne hDP, abs_of_neg hneg]
    exact ⟨rfl, rfl⟩
  · intro hpos
    have hne : M ≠ minInt64 := by unfold minInt64; omega
    rw [String_eq c M hM hne hDP, abs_of_nonneg hpos]
    exact ⟨rfl, rfl⟩
  · intro hne
    rw [String_eq c M hM hne hDP]
    rfl
  · intro hne hq
    refine ⟨_, by rw [String_eq c M hM hne hDP]; rfl, ?_⟩
    unfold fmtD
    rw [if_pos hq]
    simp only [String.data_append]
    rfl

/-- Instance of C20 at the default precision with `M = -12345`: the call returns
`-123.45` and leaves the receiver holding `12345`. -/
theorem String_not_read_only_witness :
    inInt64 (-12345) ∧ 0 < Config.default.DP ∧
    (Money.String Config.default ⟨-12345⟩).state = ⟨12345⟩ ∧
    (Money.String Config.default ⟨-12345⟩).value = some ("-123.45") := by
  have h := String_not_read_only Config.default (-12345) (by decide) (by decide)
  exact ⟨by decide, by decide, (h.1 (by decide) (by decide)).2,
    (h.2.2.1 (by decide)).trans (by decide)⟩

/-! ## `String` loses the sign of small amounts -/

/-- C21: at the default precision (`DP = 100`), for every raw value `M` with
`0 < M < 100`, `String` of a Money holding `-M` and `String` of a Money holding `M` both
return the text `0.` followed by `M` in two digits; the two raw values differ, the texts
do not. -/
theorem String_sign_lost (M : Int) (h0 : 0 < M) (h1 : M < 100) :
    (Money.String Config.default ⟨-M⟩).value = some ("0" ++ "." ++ fmt02d M) ∧
    (Money.String Config.default ⟨M⟩).value = some ("0" ++ "." ++ fmt02d M) ∧
    (Money.String Config.default ⟨-M⟩).value = (Money.String Config.default ⟨M⟩).value ∧
    (fmt02d M).data.length = 2 ∧ (⟨-M⟩ : Money) ≠ ⟨M⟩ := by
  have hDP : 0 < Config.default.DP := by decide
  have hD : Config.default.DP = 100 := rfl
  have hq : Int.tdiv M 100 = 0 := by
    rw [Int.tdiv_eq_ediv (le_of_lt h0) (by norm_num)]
    exact Int.ediv_eq_zero_of_lt (le_of_lt h0) h1
  have hqn : Int.tdiv (-M) 100 = 0 := by
    rw [Int.neg_tdiv, hq]; rfl
  have hr : Int.tmod M 100 = M := by
    rw [Int.tmod_eq_emod (le_of_lt h0) (by norm_num)]
    exact Int.emod_eq_of_lt (le_of_lt h0) h1
  have hz : fmtD 0 = "0" := by decide
  have hpos : (Money.String Config.default ⟨M⟩).value = some ("0" ++ "." ++ fmt02d M) := by
    rw [String_eq Config.default M (by unfold inInt64 minInt64 maxInt64; omega)
      (by unfold minInt64; omega) hDP, hD, abs_of_pos h0, hq, hr, hz]
    rfl
  have hneg : (Money.String Config.default ⟨-M⟩).value = some ("0" ++ "." ++ fmt02d M) := by
    rw [String_eq Config.default (-M) (by unfold inInt64 minInt64 maxInt64; omega)
      (by unfold minInt64; omega) hDP, hD, abs_neg, abs_of_pos h0, hqn, hr, hz]
    rfl
  refine ⟨hneg, hpos, hneg.trans hpos.symm, (fmt02d_length M (le_of_lt h0)).2 h1, ?_⟩
  intro h
  have hM : -M = M := congrArg Money.M h
  omega

/-- Instance of C21 with `M = 45`: a Money holding `-45` and one holding `45` both print
as `0.45`. -/
theorem String_sign_lost_witness :
    (0 : Int) < 45 ∧ (45 : Int) < 100 ∧
    (Money.String Config.default ⟨-45⟩).value = some ("0.45") ∧
    (Money.String Config.default ⟨45⟩).value = some ("0.45") := by
  have h := String_sign_lost 45 (by decide) (by decide)
  exact ⟨by decide, by decide, h.1.trans (by decide), h.2.1.trans (by decide)⟩

/-! ## `Rnd` as rounding to a nearest integer -/

/-- C22, as stated, fails at the top of the `int64` range: with `q = 2^63 - 1` and the
proper remainder `t = 1/2`, `r++` wraps around and `Rnd` returns `-2^63`, which is not
within one half of `q + t`. -/
theorem Rnd_nearest_counterexample :
    inInt64 maxInt64 ∧ (-1 : ℚ) < 1 / 2 ∧ (1 / 2 : ℚ) < 1 ∧
    Rnd maxInt64 (1 / 2) = minInt64 ∧
    ¬ |((Rnd maxInt64 (1 / 2) : Int) : ℚ) - ((maxInt64 : ℚ) + 1 / 2)| ≤ 1 / 2 := by
  have hR : Rnd maxInt64 (1 / 2) = minInt64 := by decide!
  refine ⟨by decide, by norm_num, by norm_num, hR, ?_⟩
  rw [hR]
  intro h
  have h2 := (abs_le.mp h).1
  norm_num [minInt64, maxInt64] at h2

/-- C22, amended: for every `int64` value `q` strictly between the two extremes
`-2^63` and `2^63 - 1` (where `r++` and `r--` do not wrap) and every exact rational
remainder `t` with `-1 < t < 1`, `Rnd(q, t)` is within one half of the true value
`q + t`. -/
theorem Rnd_within_half (q : Int) (t : ℚ) (hlo : minInt64 < q) (hhi : q < maxInt64)
    (h1 : -1 < t) (h2 : t < 1) : |((Rnd q t : Int) : ℚ) - ((q : ℚ) + t)| ≤ 1 / 2 := by
  rw [Rnd_eq q t hlo hhi, abs_le]
  split_ifs <;> push_cast <;> constructor <;> linarith

/-- Instance of the amended C22: `Rnd(7, -3/4) = 6` is within one half of `6.25`. -/
theorem Rnd_within_half_witness :
    minInt64 < 7 ∧ (7 : Int) < maxInt64 ∧ (-1 : ℚ) < -3 / 4 ∧ (-3 / 4 : ℚ) < 1 ∧
    |((Rnd 7 (-3 / 4) : Int) : ℚ) - (((7 : Int) : ℚ) + -3 / 4)| ≤ 1 / 2 :=
  ⟨by decide, by decide, by norm_num, by norm_num,
    Rnd_within_half 7 (-3 / 4) (by decide) (by decide) (by norm_num) (by norm_num)⟩

/-! ## `Mulf` sees its factor through the guard -/

/-- At the default precision a factor in `[0, 0.0001)` is converted to `k = 0`. -/
theorem toInt64_small_factor (f : ℚ) (h0 : 0 ≤ f) (h1 : f < 1 / 10000) :
    toInt64 (f * Guardf * Config.default.DPf) = some 0 := by
  have hD : Config.default.DPf = 100 := rfl
  have hx0 : 0 ≤ f * Guardf * Config.default.DPf := by
    rw [Guardf_eq, hD]; linarith
  have hx1 : f * Guardf * Config.default.DPf < 1 := by
    rw [Guardf_eq, hD]; linarith
  have ht : truncToZero (f * Guardf * Config.default.DPf) = 0 := by
    unfold truncToZero
    rw [if_pos hx0, Int.floor_eq_iff]
    constructor
    · simpa using hx0
    · simpa using hx1
  unfold toInt64
  rw [ht, if_pos (by decide)]

/-- C23: `Mulf(f)` depends on `f` only through `k`, the value `f*Guard*DP` truncated
toward zero: two factors with the same `k` give the same outcome for every receiver; and
at the default precision every `f` with `0 ≤ f < 0.0001` makes `Mulf` return with `0`
stored, whatever the receiver held. -/
theorem Mulf_depends_on_k (c : Config) (m : Money) (f1 f2 : ℚ)
    (hk : truncToZero (f1 * Guardf * c.DPf) = truncToZero (f2 * Guardf * c.DPf)) :
    Money.Mulf c m f1 = Money.Mulf c m f2 ∧
    (∀ (m0 : Money) (f : ℚ), 0 ≤ f → f < 1 / 10000 →
      Money.Mulf Config.default m0 f = some (Outcome.done ⟨0⟩)) := by
  constructor
  · have ht : toInt64 (f1 * Guardf * c.DPf) = toInt64 (f2 * Guardf * c.DPf) := by
      unfold toInt64
      rw [hk]
    unfold Money.Mulf
    rw [ht]
  · intro m0 f h0 h1
    have hi : idiv 0 Guard = some 0 := by decide
    have hd : idiv 0 Config.default.DP = some 0 := by decide
    have hw : wrap64 (m0.M * 0) = 0 := by
      rw [mul_zero]; decide
    have hg : fdiv ((0 : Int) : ℚ) Guardf = some 0 := by decide!
    have ht : fdiv 0 Config.default.DPf = some 0 := by decide!
    have hR : Rnd 0 (0 - ((0 : Int) : ℚ)) = 0 := by decide!
    simp only [Money.Mulf, toInt64_small_factor f h0 h1, Option.bind_eq_bind,
      Option.some_bind, hi, hd, hw, hg, ht, hR]
    rfl

/-- Instance of C23 at the default precision: the factors `0.5` and `0.50001` have the
same `k = 5000` and give the same outcome on a Money holding `1`. -/
theorem Mulf_depends_on_k_witness :
    truncToZero (1 / 2 * Guardf * Config.default.DPf)
      = truncToZero (50001 / 100000 * Guardf * Config.default.DPf) ∧
    Money.Mulf Config.default ⟨1⟩ (1 / 2) = Money.Mulf Config.default ⟨1⟩ (50001 / 100000) :=
  ⟨by decide!, (Mulf_depends_on_k Config.default ⟨1⟩ (1 / 2) (50001 / 100000) (by decide!)).1⟩

end money
